import Mathlib

/-!
# goiardi: shovey row filling, organization transactions, and the job-dispatch core

A shallow embedding of

* `shovey/mysql_funcs.go` (`fillShoveyFromMySQL`, `fillShoveyRunFromMySQL`,
  `fillShoveyRunStreamFromMySQL`, the two `saveMySQL` prologues),
* `organization/postgres_funcs.go` (`savePostgreSQL`, `renamePostgreSQL`,
  `createSearchSchema`),
* the quorum evaluator, the Job / NodeRun state machines and the output
  assembler, which the specification describes.

Conventions.  A Go `error` or `util.Gerror` result is an `Option`: `none` is
`nil`.  A `time.Time` is the integer number of nanoseconds between a fixed
epoch and the instant, `time.Duration` and `int64` are integers (the only
conversion in the code, `time.Duration(tm)`, is between two signed 64-bit
types and cannot wrap).  Fields whose Go type is not fixed by the code shown
(`RunID`, `Command`, `Status`, ...) range over a type parameter `α`.
-/

namespace Goiardi

/-! ## Shared data -/

/-- Instants of `time.Time`, in nanoseconds from a fixed epoch. -/
abbrev GoTime := Int

/-- Values of `time.Duration`, a signed count of nanoseconds. -/
abbrev Duration := Int

/-- The zero value of `time.Time`. -/
def zeroTime : GoTime := 0

/-- The struct `mysql.NullTime`: a time and whether the column was non-NULL. -/
structure NullTime where
  Time : GoTime
  Valid : Bool
  deriving DecidableEq

/-- The zero value of `mysql.NullTime`, which a `var` declaration yields. -/
def NullTime.zero : NullTime := ⟨zeroTime, false⟩

/-! ## `shovey/mysql_funcs.go` -/

/-- The fields of `Shovey` that `fillShoveyFromMySQL` reads or writes. -/
structure Shovey (α : Type) where
  RunID : α
  NodeNames : List String
  Command : α
  CreatedAt : GoTime
  UpdatedAt : GoTime
  Status : α
  Timeout : Duration
  Quorum : α
  deriving DecidableEq

/-- The fields of `ShoveyRun` that `fillShoveyRunFromMySQL` reads or writes. -/
structure ShoveyRun (α : Type) where
  ID : α
  ShoveyUUID : α
  NodeName : α
  Status : α
  AckTime : GoTime
  EndTime : GoTime
  Output : α
  Error : α
  Stderr : α
  ExitStatus : α
  deriving DecidableEq

/-- The fields of `ShoveyRunStream` that `fillShoveyRunStreamFromMySQL` reads
or writes. -/
structure ShoveyRunStream (α : Type) where
  ShoveyUUID : α
  NodeName : α
  Seq : α
  OutputType : α
  Output : α
  IsLast : α
  CreatedAt : GoTime
  deriving DecidableEq

/-- The eight destinations handed to `row.Scan` by `fillShoveyFromMySQL`, in
argument order: `&s.RunID, &nn, &s.Command, &ca, &ua, &s.Status, &tm,
&s.Quorum`. -/
structure ShoveyDest (α : Type) where
  RunID : α
  nn : List String
  Command : α
  ca : NullTime
  ua : NullTime
  Status : α
  tm : Int
  Quorum : α
  deriving DecidableEq

/-- The ten destinations handed to `row.Scan` by `fillShoveyRunFromMySQL`. -/
structure ShoveyRunDest (α : Type) where
  ID : α
  ShoveyUUID : α
  NodeName : α
  Status : α
  at_ : NullTime
  et : NullTime
  Output : α
  Error : α
  Stderr : α
  ExitStatus : α
  deriving DecidableEq

/-- The seven destinations handed to `row.Scan` by
`fillShoveyRunStreamFromMySQL`. -/
structure ShoveyRunStreamDest (α : Type) where
  ShoveyUUID : α
  NodeName : α
  Seq : α
  OutputType : α
  Output : α
  IsLast : α
  ca : NullTime
  deriving DecidableEq

/-- A `datastore.ResRow`, seen through its one method `Scan`: from the
contents of the destinations before the call it gives their contents after
the call and the error returned (`none` for `nil`).  A failing scan may
already have written some destinations. -/
abbrev ResRow (δ ε : Type) := δ → δ × Option ε

/-- The destinations as `fillShoveyFromMySQL` passes them: the receiver's
own fields and the freshly declared locals `nn`, `ca`, `ua`, `tm`. -/
def Shovey.scanDest {α : Type} (s : Shovey α) : ShoveyDest α :=
  { RunID := s.RunID, nn := [], Command := s.Command, ca := NullTime.zero,
    ua := NullTime.zero, Status := s.Status, tm := 0, Quorum := s.Quorum }

/-- The method `(s *Shovey) fillShoveyFromMySQL(row)`: the receiver after the
call and the error returned. -/
def Shovey.fillShoveyFromMySQL {α ε : Type} (s : Shovey α)
    (row : ResRow (ShoveyDest α) ε) : Shovey α × Option ε :=
  let r := row s.scanDest
  let d := r.1
  -- the four fields scanned in place
  let s := { s with RunID := d.RunID, Command := d.Command, Status := d.Status,
                    Quorum := d.Quorum }
  match r.2 with
  | some err => (s, some err)
  | none =>
    let s := if d.ca.Valid then { s with CreatedAt := d.ca.Time } else s
    let s := if d.ua.Valid then { s with UpdatedAt := d.ua.Time } else s
    let s := { s with Timeout := d.tm }
    let s := { s with NodeNames := d.nn }
    (s, none)

/-- The destinations as `fillShoveyRunFromMySQL` passes them. -/
def ShoveyRun.scanDest {α : Type} (s : ShoveyRun α) : ShoveyRunDest α :=
  { ID := s.ID, ShoveyUUID := s.ShoveyUUID, NodeName := s.NodeName,
    Status := s.Status, at_ := NullTime.zero, et := NullTime.zero,
    Output := s.Output, Error := s.Error, Stderr := s.Stderr,
    ExitStatus := s.ExitStatus }

/-- The method `(s *ShoveyRun) fillShoveyRunFromMySQL(row)`. -/
def ShoveyRun.fillShoveyRunFromMySQL {α ε : Type} (s : ShoveyRun α)
    (row : ResRow (ShoveyRunDest α) ε) : ShoveyRun α × Option ε :=
  let r := row s.scanDest
  let d := r.1
  let s := { s with ID := d.ID, ShoveyUUID := d.ShoveyUUID, NodeName := d.NodeName,
                    Status := d.Status, Output := d.Output, Error := d.Error,
                    Stderr := d.Stderr, ExitStatus := d.ExitStatus }
  match r.2 with
  | some err => (s, some err)
  | none =>
    let s := if d.at_.Valid then { s with AckTime := d.at_.Time } else s
    let s := if d.et.Valid then { s with EndTime := d.et.Time } else s
    (s, none)

/-- The destinations as `fillShoveyRunStreamFromMySQL` passes them. -/
def ShoveyRunStream.scanDest {α : Type} (s : ShoveyRunStream α) :
    ShoveyRunStreamDest α :=
  { ShoveyUUID := s.ShoveyUUID, NodeName := s.NodeName, Seq := s.Seq,
    OutputType := s.OutputType, Output := s.Output, IsLast := s.IsLast,
    ca := NullTime.zero }

/-- The method `(s *ShoveyRunStream) fillShoveyRunStreamFromMySQL(row)`. -/
def ShoveyRunStream.fillShoveyRunStreamFromMySQL {α ε : Type}
    (s : ShoveyRunStream α) (row : ResRow (ShoveyRunStreamDest α) ε) :
    ShoveyRunStream α × Option ε :=
  let r := row s.scanDest
  let d := r.1
  let s := { s with ShoveyUUID := d.ShoveyUUID, NodeName := d.NodeName, Seq := d.Seq,
                    OutputType := d.OutputType, Output := d.Output,
                    IsLast := d.IsLast }
  match r.2 with
  | some err => (s, some err)
  | none =>
    let s := if d.ca.Valid then { s with CreatedAt := d.ca.Time } else s
    (s, none)

/-- The part of `util.Gerror` the code uses.  `castErr` is `util.CastErr`,
`setStatus` is the method `SetStatus` (which updates the error in place; here
it returns the updated error) and `status` is the method `Status`.  Values of
`γ` are non-nil errors: calling `SetStatus` on a nil `Gerror` would not
return. -/
structure GerrorOps (ε γ : Type) where
  castErr : ε → γ
  setStatus : γ → Nat → γ
  status : γ → Nat

/-- The constant `http.StatusInternalServerError`. -/
def StatusInternalServerError : Nat := 500

/-- The method `(s *Shovey) saveMySQL()`.  `begin` is what
`datastore.Dbh.Begin()` returns.  The code shown ends after the check of the
begin error; `rest` stands for what a successful begin is followed by. -/
def Shovey.saveMySQL {α ε γ τ : Type} (ops : GerrorOps ε γ) (begin : Except ε τ)
    (rest : τ → Shovey α → Shovey α × Option γ) (s : Shovey α) :
    Shovey α × Option γ :=
  match begin with
  | .error err =>
    let gerr := ops.castErr err
    let gerr := ops.setStatus gerr StatusInternalServerError
    (s, some gerr)
  | .ok tx => rest tx s

/-- The method `(sr *ShoveyRun) saveMySQL()`, with the same reading of
`begin` and `rest`. -/
def ShoveyRun.saveMySQL {α ε γ τ : Type} (ops : GerrorOps ε γ) (begin : Except ε τ)
    (rest : τ → ShoveyRun α → ShoveyRun α × Option γ) (sr : ShoveyRun α) :
    ShoveyRun α × Option γ :=
  match begin with
  | .error err =>
    let gerr := ops.castErr err
    let gerr := ops.setStatus gerr StatusInternalServerError
    (sr, some gerr)
  | .ok tx => rest tx sr

/-! ## `organization/postgres_funcs.go` -/

/-- The constant `baseSearchScheme`. -/
def baseSearchScheme : String := "goiardi_search_base"

/-- The fields of `Organization` that the three functions read. -/
structure Organization (α : Type) where
  Name : α
  FullName : α
  GUID : α
  uuID : α
  id : α
  SearchSchemaName : α
  deriving DecidableEq

/-- An argument of `tx.Exec`: a Go string or the value of a field. -/
inductive SqlArg (α : Type) where
  | str (s : String)
  | field (v : α)
  deriving DecidableEq

/-- A call made on the database handle or on the transaction. -/
inductive TxOp (α : Type) where
  | Begin
  | Exec (query : String) (args : List (SqlArg α))
  | Rollback
  | Commit
  deriving DecidableEq

/-- The database as the three functions see it: what `datastore.Dbh.Begin()`
returns, and the error (`none` for `nil`) of `tx.Exec` on the transaction
begun.  The values `Rollback` and `Commit` return are dropped by the code. -/
structure Db (α ε τ : Type) where
  begin : Except ε τ
  exec : τ → String → List (SqlArg α) → Option ε

/-- The method `(o *Organization) savePostgreSQL()`: the calls made, in order,
and the `util.Gerror` returned. -/
def Organization.savePostgreSQL {α ε γ τ : Type} (castErr : ε → γ) (db : Db α ε τ)
    (o : Organization α) : List (TxOp α) × Option γ :=
  match db.begin with
  | .error err => ([.Begin], some (castErr err))
  | .ok tx =>
    let query := "SELECT goiardi.merge_orgs($1, $2, $3, $4)"
    let args := [.field o.Name, .field o.FullName, .field o.GUID, .field o.uuID]
    match db.exec tx query args with
    | some err => ([.Begin, .Exec query args, .Rollback], some (castErr err))
    | none => ([.Begin, .Exec query args, .Commit], none)

/-- The method `(o *Organization) renamePostgreSQL(newName)`. -/
def Organization.renamePostgreSQL {α ε γ τ : Type} (castErr : ε → γ) (db : Db α ε τ)
    (o : Organization α) (newName : String) : List (TxOp α) × Option γ :=
  match db.begin with
  | .error err => ([.Begin], some (castErr err))
  | .ok tx =>
    let query := "UPDATE goiardi.organizations SET name = $1 WHERE id = $2"
    let args := [.str newName, .field o.id]
    match db.exec tx query args with
    | some err => ([.Begin, .Exec query args, .Rollback], some (castErr err))
    | none => ([.Begin, .Exec query args, .Commit], none)

/-- The method `(o *Organization) createSearchSchema()`. -/
def Organization.createSearchSchema {α ε γ τ : Type} (castErr : ε → γ) (db : Db α ε τ)
    (o : Organization α) : List (TxOp α) × Option γ :=
  match db.begin with
  | .error err => ([.Begin], some (castErr err))
  | .ok tx =>
    let query := "SELECT goiardi.clone_schema($1, $2)"
    let args := [.str baseSearchScheme, .field o.SearchSchemaName]
    match db.exec tx query args with
    | some err => ([.Begin, .Exec query args, .Rollback], some (castErr err))
    | none => ([.Begin, .Exec query args, .Commit], none)

/-- Whether a call is a statement execution. -/
def TxOp.isExec {α : Type} : TxOp α → Bool
  | .Exec _ _ => true
  | _ => false

/-- Whether a call is `Rollback`. -/
def TxOp.isRollback {α : Type} : TxOp α → Bool
  | .Rollback => true
  | _ => false

/-- Whether a call is `Commit`. -/
def TxOp.isCommit {α : Type} : TxOp α → Bool
  | .Commit => true
  | _ => false

/-! ## The quorum evaluator -/

/-- The three answers of the quorum evaluator. -/
inductive QuorumResult where
  | Pending
  | Satisfied
  | Unsatisfiable
  deriving DecidableEq

/-- Modelled from the spec: the QuorumEvaluator function `evaluate`, which is
not among the source files.  `Satisfied` is `succeeded ≥ quorum`,
`Unsatisfiable` is `totalNodes - failedOrTimedOut < quorum`, `Pending` is
neither; the two conditions are tested in the order in which they are
listed. -/
def evaluate (quorum totalNodes succeeded failedOrTimedOut : Int) : QuorumResult :=
  if succeeded ≥ quorum then .Satisfied
  else if totalNodes - failedOrTimedOut < quorum then .Unsatisfiable
  else .Pending

/-! ## The Job and NodeRun state machines -/

/-- The status of a Job. -/
inductive JobStatus where
  | Submitted
  | Running
  | Complete
  | Failed
  | Cancelled
  deriving DecidableEq

/-- The status of a NodeRun. -/
inductive NodeRunStatus where
  | Invited
  | Acked
  | Running
  | Succeeded
  | Failed
  | NackTimedOut
  | Cancelled
  deriving DecidableEq

/-- Modelled from the spec: the terminal Job statuses `Complete`, `Failed`
and `Cancelled`; the Job state machine is not among the source files. -/
def JobStatus.isTerminal : JobStatus → Bool
  | .Complete | .Failed | .Cancelled => true
  | _ => false

/-- Modelled from the spec: the terminal NodeRun statuses `Succeeded`,
`Failed`, `NackTimedOut` and `Cancelled`; the NodeRun state machine is not
among the source files. -/
def NodeRunStatus.isTerminal : NodeRunStatus → Bool
  | .Succeeded | .Failed | .NackTimedOut | .Cancelled => true
  | _ => false

/-- The fields of a NodeRun that decide its status and the Job's: the node it
belongs to, its status, and the exit status a completion event brought. -/
structure NodeRun where
  nodeName : String
  status : NodeRunStatus
  exitStatus : Option Int
  deriving DecidableEq

/-- An inbound event for one NodeRun: an ack, the optional "execution
started" event, a completion with its exit status, an explicit error event,
and the expiry of the deadline set by the TimeoutSupervisor. -/
inductive NodeEvent where
  | ack
  | started
  | completion (exitStatus : Int)
  | error
  | timeout
  deriving DecidableEq

/-- An event applied to a Job: an event routed to the NodeRun of a node, or
the operator's cancel request. -/
inductive Event where
  | node (nodeName : String) (e : NodeEvent)
  | cancel
  deriving DecidableEq

/-- Modelled from the spec: the NodeRun transitions of §4.1, the NodeRun state
machine not being among the source files.  `Invited → Acked` on an ack,
`Acked → Running` on "execution started", `Running`/`Acked → Succeeded` on a
completion with exit status 0 and `→ Failed` on a completion with another
exit status or on an error event, `Invited`/`Acked`/`Running → NackTimedOut`
on a timeout.  An event with no transition from the current status is
discarded. -/
def NodeRun.handle (r : NodeRun) : NodeEvent → NodeRun
  | .ack =>
    match r.status with
    | .Invited => { r with status := .Acked }
    | _ => r
  | .started =>
    match r.status with
    | .Acked => { r with status := .Running }
    | _ => r
  | .completion x =>
    match r.status with
    | .Acked | .Running =>
      { r with status := if x = 0 then .Succeeded else .Failed, exitStatus := some x }
    | _ => r
  | .error =>
    match r.status with
    | .Acked | .Running => { r with status := .Failed }
    | _ => r
  | .timeout =>
    match r.status with
    | .Invited | .Acked | .Running => { r with status := .NackTimedOut }
    | _ => r

/-- Modelled from the spec: cancellation propagated from the Job, which moves
a NodeRun in a non-terminal status to `Cancelled` and leaves a terminal one
untouched. -/
def NodeRun.cancel (r : NodeRun) : NodeRun :=
  if r.status.isTerminal then r else { r with status := .Cancelled }

/-- The fields of a Job that decide its status: the quorum as a count, fixed
at creation, the status, and one NodeRun per target node. -/
structure Job where
  quorum : Nat
  status : JobStatus
  runs : List NodeRun
  deriving DecidableEq

/-- The number of NodeRuns in status `Succeeded`. -/
def succeededCount (runs : List NodeRun) : Nat :=
  runs.countP fun r => r.status = .Succeeded

/-- The number of NodeRuns in status `Failed` or `NackTimedOut`. -/
def failedOrTimedOutCount (runs : List NodeRun) : Nat :=
  runs.countP fun r => r.status = .Failed ∨ r.status = .NackTimedOut

/-- Modelled from the spec: the Job and NodeRuns that `Submit` creates (§4.5),
the DispatchCoordinator not being among the source files: the Job in
`Submitted`, one NodeRun per node in `Invited`. -/
def Job.create (nodeNames : List String) (quorum : Nat) : Job :=
  { quorum := quorum, status := .Submitted,
    runs := nodeNames.map fun n => { nodeName := n, status := .Invited, exitStatus := none } }

/-- The failure of `Submit`. -/
inductive DispatchError where
  | InvalidRequest
  deriving DecidableEq

/-- Modelled from the spec: the validation done by `Submit` (§4.5): the node
list is non-empty and the quorum is an integer in `[1, len(nodeNames)]`,
otherwise `InvalidRequest` and nothing is created. -/
def submit (nodeNames : List String) (quorum : Nat) : Except DispatchError Job :=
  if nodeNames = [] ∨ quorum < 1 ∨ nodeNames.length < quorum then .error .InvalidRequest
  else .ok (Job.create nodeNames quorum)

/-- Modelled from the spec: the Job status after a NodeRun event has been
applied (§4.1, §4.2), the Job state machine not being among the source files.
`Submitted → Running` once a NodeRun has left `Invited`; a `Running` Job is
re-evaluated: `Satisfied` gives `Complete`, `Unsatisfiable` gives `Failed`,
`Pending` leaves it `Running`. -/
def Job.reevaluate (quorum : Nat) (status : JobStatus) (runs : List NodeRun) : JobStatus :=
  let status :=
    if status = .Submitted ∧ runs.any (fun r => r.status ≠ .Invited) then .Running
    else status
  if status = .Running then
    match evaluate quorum runs.length (succeededCount runs) (failedOrTimedOutCount runs) with
    | .Satisfied => .Complete
    | .Unsatisfiable => .Failed
    | .Pending => .Running
  else status

/-- Modelled from the spec: one step of the DispatchCoordinator on a Job
(§4.1, §4.5, §8), which is not among the source files.  An event after a
terminal Job status is a no-op.  A NodeRun event is routed to the NodeRun of
the node named and the Job is re-evaluated.  A cancel moves the Job and every
non-terminal NodeRun to `Cancelled`. -/
def Job.handle (j : Job) : Event → Job
  | .node name e =>
    if j.status.isTerminal then j
    else
      let runs := j.runs.map fun r => if r.nodeName = name then r.handle e else r
      { j with runs := runs, status := Job.reevaluate j.quorum j.status runs }
  | .cancel =>
    if j.status.isTerminal then j
    else { j with status := .Cancelled, runs := j.runs.map NodeRun.cancel }

/-- The Job after a sequence of events, applied in order. -/
def Job.run (j : Job) (events : List Event) : Job :=
  events.foldl Job.handle j

/-! ## The output assembler -/

/-- An output chunk as one assembler receives it; the routing key (`jobID`,
`nodeName`, `channel`) has selected the assembler.  The payload's bytes are
written as characters. -/
structure OutputChunk where
  sequence : Nat
  payload : List Char
  isFinal : Bool
  deriving DecidableEq

/-- The state of the assembler of one channel of one NodeRun: the next
expected sequence number, the transcript, the out-of-order buffer (kept in
increasing sequence order), whether the final chunk has been applied, the
transcript offsets at which a loss marker was set (each a reported DataLoss),
whether the enclosing NodeRun has reached a terminal status, and how many
chunks were discarded because it had (each a logged StaleEvent). -/
structure OutputAssembler where
  expected : Nat
  transcript : List Char
  buffer : List OutputChunk
  closed : Bool
  losses : List Nat
  terminal : Bool
  stale : Nat
  deriving DecidableEq

/-- What can happen to the assembler of one channel: a chunk arrives, the
time limit of the out-of-order buffer is exceeded, or the enclosing NodeRun
reaches a terminal status.  Real time is not part of the embedding: the
expiry of the time limit is an event that may fall between any two
arrivals. -/
inductive AssemblerEvent where
  | chunk (c : OutputChunk)
  | bufferTimeExceeded
  | nodeRunTerminal
  deriving DecidableEq

/-- The assembler before any chunk, expecting the base sequence number. -/
def OutputAssembler.init (base : Nat) : OutputAssembler :=
  { expected := base, transcript := [], buffer := [], closed := false, losses := [],
    terminal := false, stale := 0 }

/-- Modelled from the spec: applying the expected chunk (§4.3), the
OutputAssembler not being among the source files: its payload is appended to
the transcript, `expected` advances, and a final chunk closes the channel. -/
def OutputAssembler.append (a : OutputAssembler) (c : OutputChunk) : OutputAssembler :=
  { a with transcript := a.transcript ++ c.payload, expected := a.expected + 1,
           closed := a.closed || c.isFinal }

/-- Modelled from the spec: buffering an out-of-order chunk (§3, §4.3), the
OutputAssembler not being among the source files.  The buffer is kept in
increasing sequence order and a chunk whose sequence number is already
buffered is a duplicate and is discarded. -/
def insertChunk (c : OutputChunk) : List OutputChunk → List OutputChunk
  | [] => [c]
  | d :: ds =>
    if c.sequence < d.sequence then c :: d :: ds
    else if c.sequence = d.sequence then d :: ds
    else d :: insertChunk c ds

/-- Modelled from the spec: "drain any buffered chunks that have become
contiguous" (§4.3), the OutputAssembler not being among the source files.
`buf` is the buffer, in increasing sequence order; chunks are applied from
its front for as long as the front chunk is the expected one. -/
def OutputAssembler.drain (a : OutputAssembler) : List OutputChunk → OutputAssembler
  | [] => { a with buffer := [] }
  | c :: rest =>
    if c.sequence = a.expected then (a.append c).drain rest
    else { a with buffer := c :: rest }

/-- Modelled from the spec: the flush-with-gap (§3, §7), the OutputAssembler
not being among the source files: whatever was received is applied in
sequence order without the missing pieces, and each gap is annotated with a
loss marker at the transcript offset where it falls. -/
def OutputAssembler.flush (a : OutputAssembler) : List OutputChunk → OutputAssembler
  | [] => { a with buffer := [] }
  | c :: rest =>
    let a := if a.expected < c.sequence
             then { a with losses := a.losses ++ [a.transcript.length],
                           expected := c.sequence }
             else a
    (a.append c).flush rest

/-- Modelled from the spec: the arrival of a chunk at the assembler of a
NodeRun that is not terminal (§4.3), the OutputAssembler not being among the
source files.  `maxBuf` is the maximum size of the out-of-order buffer.  The
expected chunk is applied and the buffer drained; a chunk ahead of `expected`
is buffered, and a buffer grown beyond `maxBuf` forces a flush-with-gap; a
chunk behind `expected` is a duplicate and is discarded. -/
def OutputAssembler.arrive (maxBuf : Nat) (a : OutputAssembler) (c : OutputChunk) :
    OutputAssembler :=
  if c.sequence = a.expected then (a.append c).drain a.buffer
  else if a.expected < c.sequence then
    let buf := insertChunk c a.buffer
    if maxBuf < buf.length then a.flush buf else { a with buffer := buf }
  else a

/-- Modelled from the spec: one event at the assembler (§3, §4.1, §4.3, §7),
the OutputAssembler not being among the source files.  Once the NodeRun is
terminal nothing is mutated any more: a chunk is discarded as a stale event
and the other events are no-ops.  Before that a chunk arrives as in
`arrive`, an exceeded buffer time limit forces a flush-with-gap, and the
NodeRun reaching a terminal status flushes whatever was received. -/
def OutputAssembler.step (maxBuf : Nat) (a : OutputAssembler) :
    AssemblerEvent → OutputAssembler
  | .chunk c => if a.terminal then { a with stale := a.stale + 1 } else a.arrive maxBuf c
  | .bufferTimeExceeded => if a.terminal then a else a.flush a.buffer
  | .nodeRunTerminal => if a.terminal then a else { a.flush a.buffer with terminal := true }

/-- The assembler after a sequence of events, applied in order. -/
def OutputAssembler.run (maxBuf base : Nat) (events : List AssemblerEvent) :
    OutputAssembler :=
  events.foldl (OutputAssembler.step maxBuf) (OutputAssembler.init base)

/-- The assembler after the chunks of `arrival` have arrived in that order
and nothing else has happened. -/
def OutputAssembler.assemble (maxBuf base : Nat) (arrival : List OutputChunk) :
    OutputAssembler :=
  OutputAssembler.run maxBuf base (arrival.map AssemblerEvent.chunk)

/-- The chunks that arrive in a sequence of events, in arrival order. -/
def arrivals : List AssemblerEvent → List OutputChunk
  | [] => []
  | .chunk c :: rest => c :: arrivals rest
  | _ :: rest => arrivals rest

/-- The concatenation of the payloads of `chunks`, in list order. -/
def concatPayloads (chunks : List OutputChunk) : List Char :=
  chunks.flatMap fun c => c.payload

/-! ## Concrete rows and databases used to instantiate the theorems -/

/-- A Shovey as it may stand before a row is loaded into it. -/
def exampleShovey : Shovey String :=
  { RunID := "", NodeNames := ["stale"], Command := "", CreatedAt := 7, UpdatedAt := 8,
    Status := "", Timeout := 1, Quorum := "" }

/-- A row of the shovey table whose scan succeeds; `created_at` is non-NULL
and `updated_at` is NULL. -/
def exampleShoveyRow : ResRow (ShoveyDest String) String := fun _ =>
  ({ RunID := "run-1", nn := ["a", "b"], Command := "uptime", ca := ⟨100, true⟩,
     ua := ⟨0, false⟩, Status := "running", tm := 300, Quorum := "100%" }, none)

/-- A ShoveyRun as it may stand before a row is loaded into it. -/
def exampleShoveyRun : ShoveyRun String :=
  { ID := "", ShoveyUUID := "", NodeName := "", Status := "", AckTime := 0, EndTime := 0,
    Output := "", Error := "", Stderr := "", ExitStatus := "" }

/-- A row of the shovey run table whose scan succeeds, with both time columns
non-NULL and the end time before the ack time. -/
def backwardsRunRow : ResRow (ShoveyRunDest String) String := fun d =>
  ({ d with at_ := ⟨10, true⟩, et := ⟨5, true⟩ }, none)

/-- A row of the shovey run table whose scan succeeds, with both time columns
non-NULL and the end time after the ack time. -/
def forwardRunRow : ResRow (ShoveyRunDest String) String := fun d =>
  ({ d with at_ := ⟨10, true⟩, et := ⟨25, true⟩ }, none)

/-- A `util.Gerror` reduced to its message and its status, with `CastErr`
giving status 400. -/
def exampleGerrorOps : GerrorOps String (String × Nat) :=
  { castErr := fun e => (e, 400), setStatus := fun g n => (g.1, n), status := fun g => g.2 }

/-- The transaction discipline that C7 states, for a function that made the
calls `r.1` and returned `r.2` while meaning to execute `query` with
`args`. -/
def TxDiscipline {α ε γ τ : Type} (castErr : ε → γ) (db : Db α ε τ) (query : String)
    (args : List (SqlArg α)) (r : List (TxOp α) × Option γ) : Prop :=
  -- a failed begin: the error is returned, nothing is executed, committed or rolled back
  (∀ err, db.begin = .error err →
    r.2 = some (castErr err) ∧ r.1.countP TxOp.isExec = 0 ∧
    r.1.countP TxOp.isRollback = 0 ∧ r.1.countP TxOp.isCommit = 0) ∧
  -- a begun transaction: the statement, then exactly one of Rollback and Commit
  (∀ tx, db.begin = .ok tx →
    r.1.countP TxOp.isExec = 1 ∧
    r.1.countP TxOp.isRollback + r.1.countP TxOp.isCommit = 1 ∧
    (∀ err, db.exec tx query args = some err →
      r.1 = [.Begin, .Exec query args, .Rollback] ∧ r.2 = some (castErr err)) ∧
    (db.exec tx query args = none →
      r.1 = [.Begin, .Exec query args, .Commit] ∧ r.2 = none)) ∧
  -- nil exactly when both the begin and the statement succeeded
  (r.2 = none ↔ ∃ tx, db.begin = .ok tx ∧ db.exec tx query args = none)

/-- The chunks of one channel are consecutive from `base`: listed in
increasing sequence order, their sequence numbers are `base`, `base + 1`,
... -/
def ConsecutiveFrom (base : Nat) (chunks : List OutputChunk) : Prop :=
  chunks.map (fun c => c.sequence) = List.range' base chunks.length

instance ConsecutiveFrom.instDecidable (base : Nat) (chunks : List OutputChunk) :
    Decidable (ConsecutiveFrom base chunks) :=
  inferInstanceAs (Decidable (chunks.map (fun c => c.sequence) = List.range' base chunks.length))

/-- The invariant of the assembler while chunks of `chunks` arrive and the
buffer does not overflow: `expected` lies between `base` and the end, the
transcript is the payloads of the chunks below `expected`, and the buffer
holds chunks of `chunks` ahead of `expected` in increasing sequence order. -/
structure AssemblerInv (base : Nat) (chunks : List OutputChunk) (a : OutputAssembler) :
    Prop where
  base_le : base ≤ a.expected
  le_end : a.expected ≤ base + chunks.length
  transcript_eq : a.transcript = concatPayloads (chunks.take (a.expected - base))
  sorted : a.buffer.Pairwise fun c d => c.sequence < d.sequence
  ahead : ∀ c ∈ a.buffer, a.expected < c.sequence ∧ c ∈ chunks

/-- A chunk is accounted for by the assembler: it lies below `expected`, so
it has been applied, or it is in the buffer. -/
def OutputAssembler.Covers (a : OutputAssembler) (x : OutputChunk) : Prop :=
  x.sequence < a.expected ∨ x ∈ a.buffer

/-- The three chunks of the example of §8, in sequence order. -/
def abcChunks : List OutputChunk :=
  [⟨1, ['a'], false⟩, ⟨2, ['b'], false⟩, ⟨3, ['c'], true⟩]

/-- The course of the example of §8: the chunks arrive in the order 2, 1, 3,
after which the NodeRun reaches a terminal status. -/
def abcEvents : List AssemblerEvent :=
  [.chunk ⟨2, ['b'], false⟩, .chunk ⟨1, ['a'], false⟩, .chunk ⟨3, ['c'], true⟩,
   .nodeRunTerminal]

/-- The three chunks arriving last first: 3, 2, 1. -/
def abcReversed : List OutputChunk :=
  [⟨3, ['c'], true⟩, ⟨2, ['b'], false⟩, ⟨1, ['a'], false⟩]

/-- The arrival order 2, 1, 3 of the example of §8, with the time limit of the
buffer exceeded while chunk 2 waits for chunk 1. -/
def abcEventsExpired : List AssemblerEvent :=
  [.chunk ⟨2, ['b'], false⟩, .bufferTimeExceeded, .chunk ⟨1, ['a'], false⟩,
   .chunk ⟨3, ['c'], true⟩]

end Goiardi

namespace Goiardi

/-! ## Theorems about `shovey/mysql_funcs.go` -/

/-- The result of `fillShoveyFromMySQL` when the scan fails: the scan's error,
and the receiver with only the fields scanned in place rewritten. -/
theorem Shovey.fillShoveyFromMySQL_of_error {α ε : Type} (s : Shovey α)
    (row : ResRow (ShoveyDest α) ε) (e : ε) (h : (row s.scanDest).2 = some e) :
    s.fillShoveyFromMySQL row =
      ({ s with RunID := (row s.scanDest).1.RunID, Command := (row s.scanDest).1.Command,
                Status := (row s.scanDest).1.Status, Quorum := (row s.scanDest).1.Quorum },
        some e) := by
  simp only [Shovey.fillShoveyFromMySQL, h]

/-- The result of `fillShoveyFromMySQL` when the scan succeeds. -/
theorem Shovey.fillShoveyFromMySQL_of_ok {α ε : Type} (s : Shovey α)
    (row : ResRow (ShoveyDest α) ε) (h : (row s.scanDest).2 = none) :
    s.fillShoveyFromMySQL row =
      ({ RunID := (row s.scanDest).1.RunID, NodeNames := (row s.scanDest).1.nn,
         Command := (row s.scanDest).1.Command,
         CreatedAt := if (row s.scanDest).1.ca.Valid then (row s.scanDest).1.ca.Time
                      else s.CreatedAt,
         UpdatedAt := if (row s.scanDest).1.ua.Valid then (row s.scanDest).1.ua.Time
                      else s.UpdatedAt,
         Status := (row s.scanDest).1.Status, Timeout := (row s.scanDest).1.tm,
         Quorum := (row s.scanDest).1.Quorum }, none) := by
  simp only [Shovey.fillShoveyFromMySQL, h]
  cases (row s.scanDest).1.ca.Valid <;> cases (row s.scanDest).1.ua.Valid <;> rfl

/-- The result of `fillShoveyRunFromMySQL` when the scan fails. -/
theorem ShoveyRun.fillShoveyRunFromMySQL_of_error {α ε : Type} (s : ShoveyRun α)
    (row : ResRow (ShoveyRunDest α) ε) (e : ε) (h : (row s.scanDest).2 = some e) :
    (s.fillShoveyRunFromMySQL row).2 = some e ∧
    (s.fillShoveyRunFromMySQL row).1.AckTime = s.AckTime ∧
    (s.fillShoveyRunFromMySQL row).1.EndTime = s.EndTime := by
  simp only [ShoveyRun.fillShoveyRunFromMySQL, h, and_self]

/-- The result of `fillShoveyRunFromMySQL` when the scan succeeds. -/
theorem ShoveyRun.fillShoveyRunFromMySQL_of_ok {α ε : Type} (s : ShoveyRun α)
    (row : ResRow (ShoveyRunDest α) ε) (h : (row s.scanDest).2 = none) :
    s.fillShoveyRunFromMySQL row =
      ({ ID := (row s.scanDest).1.ID, ShoveyUUID := (row s.scanDest).1.ShoveyUUID,
         NodeName := (row s.scanDest).1.NodeName, Status := (row s.scanDest).1.Status,
         AckTime := if (row s.scanDest).1.at_.Valid then (row s.scanDest).1.at_.Time
                    else s.AckTime,
         EndTime := if (row s.scanDest).1.et.Valid then (row s.scanDest).1.et.Time
                    else s.EndTime,
         Output := (row s.scanDest).1.Output, Error := (row s.scanDest).1.Error,
         Stderr := (row s.scanDest).1.Stderr,
         ExitStatus := (row s.scanDest).1.ExitStatus }, none) := by
  simp only [ShoveyRun.fillShoveyRunFromMySQL, h]
  cases (row s.scanDest).1.at_.Valid <;> cases (row s.scanDest).1.et.Valid <;> rfl

/-- The result of `fillShoveyRunStreamFromMySQL` when the scan fails. -/
theorem ShoveyRunStream.fillShoveyRunStreamFromMySQL_of_error {α ε : Type}
    (s : ShoveyRunStream α) (row : ResRow (ShoveyRunStreamDest α) ε) (e : ε)
    (h : (row s.scanDest).2 = some e) :
    (s.fillShoveyRunStreamFromMySQL row).2 = some e ∧
    (s.fillShoveyRunStreamFromMySQL row).1.CreatedAt = s.CreatedAt := by
  simp only [ShoveyRunStream.fillShoveyRunStreamFromMySQL, h, and_self]

/-- The result of `fillShoveyRunStreamFromMySQL` when the scan succeeds. -/
theorem ShoveyRunStream.fillShoveyRunStreamFromMySQL_of_ok {α ε : Type}
    (s : ShoveyRunStream α) (row : ResRow (ShoveyRunStreamDest α) ε)
    (h : (row s.scanDest).2 = none) :
    (s.fillShoveyRunStreamFromMySQL row).2 = none := by
  simp only [ShoveyRunStream.fillShoveyRunStreamFromMySQL, h]

/-- C8: when the row's scan succeeds, `fillShoveyFromMySQL` returns nil and
leaves `Timeout` equal to the scanned integer, `NodeNames` equal to the
scanned name list, `CreatedAt` (resp. `UpdatedAt`) equal to the column's time
when the column is non-NULL and to its value before the call when it is
NULL. -/
theorem fillShoveyFromMySQL_scan_ok {α ε : Type} (s : Shovey α)
    (row : ResRow (ShoveyDest α) ε) (hscan : (row s.scanDest).2 = none) :
    (s.fillShoveyFromMySQL row).2 = none ∧
    (s.fillShoveyFromMySQL row).1.Timeout = (row s.scanDest).1.tm ∧
    (s.fillShoveyFromMySQL row).1.NodeNames = (row s.scanDest).1.nn ∧
    ((row s.scanDest).1.ca.Valid = true →
      (s.fillShoveyFromMySQL row).1.CreatedAt = (row s.scanDest).1.ca.Time) ∧
    ((row s.scanDest).1.ca.Valid = false →
      (s.fillShoveyFromMySQL row).1.CreatedAt = s.CreatedAt) ∧
    ((row s.scanDest).1.ua.Valid = true →
      (s.fillShoveyFromMySQL row).1.UpdatedAt = (row s.scanDest).1.ua.Time) ∧
    ((row s.scanDest).1.ua.Valid = false →
      (s.fillShoveyFromMySQL row).1.UpdatedAt = s.UpdatedAt) := by
  rw [Shovey.fillShoveyFromMySQL_of_ok s row hscan]
  refine ⟨rfl, rfl, rfl, ?_, ?_, ?_, ?_⟩ <;> intro h
  · cases hu : (row s.scanDest).1.ua.Valid <;> simp [h, hu]
  · cases hu : (row s.scanDest).1.ua.Valid <;> simp [h, hu]
  · cases hc : (row s.scanDest).1.ca.Valid <;> simp [h, hc]
  · cases hc : (row s.scanDest).1.ca.Valid <;> simp [h, hc]

/-- Witness for C8: the theorem at `exampleShovey` and `exampleShoveyRow`,
where the timeout becomes 300, the names `a`, `b`, `CreatedAt` the column's
100 and `UpdatedAt` stays 8. -/
theorem fillShoveyFromMySQL_scan_ok_witness :
    (exampleShoveyRow exampleShovey.scanDest).2 = none ∧
    (exampleShovey.fillShoveyFromMySQL exampleShoveyRow).1.Timeout = 300 ∧
    (exampleShovey.fillShoveyFromMySQL exampleShoveyRow).1.NodeNames = ["a", "b"] ∧
    (exampleShovey.fillShoveyFromMySQL exampleShoveyRow).1.CreatedAt = 100 ∧
    (exampleShovey.fillShoveyFromMySQL exampleShoveyRow).1.UpdatedAt = 8 :=
  have h := fillShoveyFromMySQL_scan_ok exampleShovey exampleShoveyRow rfl
  ⟨rfl, h.2.1, h.2.2.1, h.2.2.2.1 rfl, h.2.2.2.2.2.2 rfl⟩

/-- C9: each of the three fill functions returns a non-nil error exactly when
the scan does, the error returned is the scan's, and then the fields assigned
after the scan keep the values they had before the call. -/
theorem fill_error_is_scan_error {α ε : Type}
    (s : Shovey α) (row : ResRow (ShoveyDest α) ε)
    (sr : ShoveyRun α) (rowR : ResRow (ShoveyRunDest α) ε)
    (ss : ShoveyRunStream α) (rowS : ResRow (ShoveyRunStreamDest α) ε) :
    (((s.fillShoveyFromMySQL row).2 ≠ none ↔ (row s.scanDest).2 ≠ none) ∧
      (s.fillShoveyFromMySQL row).2 = (row s.scanDest).2 ∧
      ((row s.scanDest).2 ≠ none →
        (s.fillShoveyFromMySQL row).1.CreatedAt = s.CreatedAt ∧
        (s.fillShoveyFromMySQL row).1.UpdatedAt = s.UpdatedAt ∧
        (s.fillShoveyFromMySQL row).1.Timeout = s.Timeout ∧
        (s.fillShoveyFromMySQL row).1.NodeNames = s.NodeNames)) ∧
    (((sr.fillShoveyRunFromMySQL rowR).2 ≠ none ↔ (rowR sr.scanDest).2 ≠ none) ∧
      (sr.fillShoveyRunFromMySQL rowR).2 = (rowR sr.scanDest).2 ∧
      ((rowR sr.scanDest).2 ≠ none →
        (sr.fillShoveyRunFromMySQL rowR).1.AckTime = sr.AckTime ∧
        (sr.fillShoveyRunFromMySQL rowR).1.EndTime = sr.EndTime)) ∧
    (((ss.fillShoveyRunStreamFromMySQL rowS).2 ≠ none ↔ (rowS ss.scanDest).2 ≠ none) ∧
      (ss.fillShoveyRunStreamFromMySQL rowS).2 = (rowS ss.scanDest).2 ∧
      ((rowS ss.scanDest).2 ≠ none →
        (ss.fillShoveyRunStreamFromMySQL rowS).1.CreatedAt = ss.CreatedAt)) := by
  refine ⟨?_, ?_, ?_⟩
  · cases h : (row s.scanDest).2 with
    | none => simp [Shovey.fillShoveyFromMySQL_of_ok s row h]
    | some e => simp [Shovey.fillShoveyFromMySQL_of_error s row e h]
  · cases h : (rowR sr.scanDest).2 with
    | none => simp [ShoveyRun.fillShoveyRunFromMySQL_of_ok sr rowR h]
    | some e => simp [ShoveyRun.fillShoveyRunFromMySQL_of_error sr rowR e h]
  · cases h : (rowS ss.scanDest).2 with
    | none => simp [ShoveyRunStream.fillShoveyRunStreamFromMySQL_of_ok ss rowS h]
    | some e => simp [ShoveyRunStream.fillShoveyRunStreamFromMySQL_of_error ss rowS e h]

/-- C6, as the code has it: when the scan succeeds and both time columns are
non-NULL, `fillShoveyRunFromMySQL` copies the two columns unchanged, so the
resulting `EndTime` is at or after the resulting `AckTime` exactly when the
row's end time is at or after the row's ack time. -/
theorem fillShoveyRunFromMySQL_copies_times {α ε : Type} (s : ShoveyRun α)
    (row : ResRow (ShoveyRunDest α) ε) (hscan : (row s.scanDest).2 = none)
    (hat : (row s.scanDest).1.at_.Valid = true)
    (het : (row s.scanDest).1.et.Valid = true) :
    (s.fillShoveyRunFromMySQL row).2 = none ∧
    (s.fillShoveyRunFromMySQL row).1.AckTime = (row s.scanDest).1.at_.Time ∧
    (s.fillShoveyRunFromMySQL row).1.EndTime = (row s.scanDest).1.et.Time ∧
    ((s.fillShoveyRunFromMySQL row).1.AckTime ≤ (s.fillShoveyRunFromMySQL row).1.EndTime ↔
      (row s.scanDest).1.at_.Time ≤ (row s.scanDest).1.et.Time) := by
  rw [ShoveyRun.fillShoveyRunFromMySQL_of_ok s row hscan]
  simp [hat, het]

/-- Witness for the amended C6: the theorem at `forwardRunRow`, whose end time
25 follows its ack time 10. -/
theorem fillShoveyRunFromMySQL_copies_times_witness :
    (forwardRunRow exampleShoveyRun.scanDest).2 = none ∧
    (exampleShoveyRun.fillShoveyRunFromMySQL forwardRunRow).1.AckTime = 10 ∧
    (exampleShoveyRun.fillShoveyRunFromMySQL forwardRunRow).1.EndTime = 25 :=
  have h := fillShoveyRunFromMySQL_copies_times exampleShoveyRun forwardRunRow rfl rfl rfl
  ⟨rfl, h.2.1, h.2.2.1⟩

/-- Counterexample to C6 as stated: `backwardsRunRow` scans without error and
has both time columns non-NULL, and the ShoveyRun filled from it has
`EndTime` 5 before `AckTime` 10. -/
theorem fillShoveyRunFromMySQL_end_before_ack :
    (backwardsRunRow exampleShoveyRun.scanDest).2 = none ∧
    (backwardsRunRow exampleShoveyRun.scanDest).1.at_.Valid = true ∧
    (backwardsRunRow exampleShoveyRun.scanDest).1.et.Valid = true ∧
    (exampleShoveyRun.fillShoveyRunFromMySQL backwardsRunRow).2 = none ∧
    ¬ ((exampleShoveyRun.fillShoveyRunFromMySQL backwardsRunRow).1.EndTime ≥
        (exampleShoveyRun.fillShoveyRunFromMySQL backwardsRunRow).1.AckTime) := by
  decide

/-- C10: when beginning the transaction fails with `err`, both `saveMySQL`
return the non-nil error `CastErr(err)` with its status set to 500, and leave
the receiver as it was. -/
theorem saveMySQL_begin_fails {α ε γ τ : Type} (ops : GerrorOps ε γ)
    (hset : ∀ g n, ops.status (ops.setStatus g n) = n) (err : ε)
    (rest : τ → Shovey α → Shovey α × Option γ) (s : Shovey α)
    (restR : τ → ShoveyRun α → ShoveyRun α × Option γ) (sr : ShoveyRun α) :
    (Shovey.saveMySQL ops (.error err) rest s =
        (s, some (ops.setStatus (ops.castErr err) 500)) ∧
      ∃ gerr, (Shovey.saveMySQL ops (.error err) rest s).2 = some gerr ∧
        ops.status gerr = 500) ∧
    (ShoveyRun.saveMySQL ops (.error err) restR sr =
        (sr, some (ops.setStatus (ops.castErr err) 500)) ∧
      ∃ gerr, (ShoveyRun.saveMySQL ops (.error err) restR sr).2 = some gerr ∧
        ops.status gerr = 500) :=
  ⟨⟨rfl, _, rfl, hset _ _⟩, ⟨rfl, _, rfl, hset _ _⟩⟩

/-- Witness for C10: the theorem at `exampleGerrorOps` and the begin error
`"connection refused"`. -/
theorem saveMySQL_begin_fails_witness :
    (∀ g n, exampleGerrorOps.status (exampleGerrorOps.setStatus g n) = n) ∧
    Shovey.saveMySQL exampleGerrorOps (Except.error "connection refused")
        (fun (_ : Unit) s => (s, none)) exampleShovey =
      (exampleShovey, some ("connection refused", 500)) ∧
    ShoveyRun.saveMySQL exampleGerrorOps (Except.error "connection refused")
        (fun (_ : Unit) s => (s, none)) exampleShoveyRun =
      (exampleShoveyRun, some ("connection refused", 500)) :=
  have h := saveMySQL_begin_fails exampleGerrorOps (fun _ _ => rfl) "connection refused"
    (fun (_ : Unit) s => (s, none)) exampleShovey (fun (_ : Unit) s => (s, none))
    exampleShoveyRun
  ⟨fun _ _ => rfl, h.1.1, h.2.1⟩

/-! ## Theorems about `organization/postgres_funcs.go` -/

/-- The discipline holds of any result computed the way the three functions
compute theirs. -/
theorem txDiscipline_of_shape {α ε γ τ : Type} (castErr : ε → γ) (db : Db α ε τ)
    (query : String) (args : List (SqlArg α)) (r : List (TxOp α) × Option γ)
    (hr : r = match db.begin with
      | .error err => ([.Begin], some (castErr err))
      | .ok tx =>
        match db.exec tx query args with
        | some err => ([.Begin, .Exec query args, .Rollback], some (castErr err))
        | none => ([.Begin, .Exec query args, .Commit], none)) :
    TxDiscipline castErr db query args r := by
  subst hr
  unfold TxDiscipline
  cases hb : db.begin with
  | error err => simp [TxOp.isExec, TxOp.isRollback, TxOp.isCommit]
  | ok tx =>
    cases he : db.exec tx query args with
    | none => simp [he, TxOp.isExec, TxOp.isRollback, TxOp.isCommit]
    | some err => simp [he, TxOp.isExec, TxOp.isRollback, TxOp.isCommit]

/-- C7: `savePostgreSQL`, `renamePostgreSQL` and `createSearchSchema` each
return the begin error without executing, committing or rolling back when
the begin fails; otherwise each executes its one statement and then calls
exactly one of Rollback (statement failed, non-nil error returned) and Commit
(statement succeeded, nil returned); the result is nil exactly when both the
begin and the statement succeeded. -/
theorem organization_tx_discipline {α ε γ τ : Type} (castErr : ε → γ) (db : Db α ε τ)
    (o : Organization α) (newName : String) :
    TxDiscipline castErr db "SELECT goiardi.merge_orgs($1, $2, $3, $4)"
      [.field o.Name, .field o.FullName, .field o.GUID, .field o.uuID]
      (o.savePostgreSQL castErr db) ∧
    TxDiscipline castErr db "UPDATE goiardi.organizations SET name = $1 WHERE id = $2"
      [.str newName, .field o.id] (o.renamePostgreSQL castErr db newName) ∧
    TxDiscipline castErr db "SELECT goiardi.clone_schema($1, $2)"
      [.str "goiardi_search_base", .field o.SearchSchemaName]
      (o.createSearchSchema castErr db) :=
  ⟨txDiscipline_of_shape castErr db _ _ _ rfl, txDiscipline_of_shape castErr db _ _ _ rfl,
    txDiscipline_of_shape castErr db _ _ _ rfl⟩

/-! ## Theorems about the quorum evaluator -/

/-- C3: for `1 ≤ quorum ≤ totalNodes`, non-negative counts and
`succeeded + failedOrTimedOut ≤ totalNodes`, `evaluate` returns one of the
three results, `Satisfied` exactly when `succeeded ≥ quorum`, `Unsatisfiable`
exactly when `totalNodes - failedOrTimedOut < quorum`, `Pending` exactly when
neither holds, and the two conditions never hold together. -/
theorem evaluate_trichotomy (quorum totalNodes succeeded failedOrTimedOut : Int)
    (_hq : 1 ≤ quorum) (_hqn : quorum ≤ totalNodes) (_hs : 0 ≤ succeeded)
    (_hf : 0 ≤ failedOrTimedOut) (hsum : succeeded + failedOrTimedOut ≤ totalNodes) :
    (evaluate quorum totalNodes succeeded failedOrTimedOut = .Pending ∨
      evaluate quorum totalNodes succeeded failedOrTimedOut = .Satisfied ∨
      evaluate quorum totalNodes succeeded failedOrTimedOut = .Unsatisfiable) ∧
    (evaluate quorum totalNodes succeeded failedOrTimedOut = .Satisfied ↔
      succeeded ≥ quorum) ∧
    (evaluate quorum totalNodes succeeded failedOrTimedOut = .Unsatisfiable ↔
      totalNodes - failedOrTimedOut < quorum) ∧
    (evaluate quorum totalNodes succeeded failedOrTimedOut = .Pending ↔
      ¬ succeeded ≥ quorum ∧ ¬ totalNodes - failedOrTimedOut < quorum) ∧
    ¬ (succeeded ≥ quorum ∧ totalNodes - failedOrTimedOut < quorum) := by
  have hex : ¬ (succeeded ≥ quorum ∧ totalNodes - failedOrTimedOut < quorum) := by
    rintro ⟨h1, h2⟩
    omega
  unfold evaluate
  by_cases h1 : succeeded ≥ quorum
  · have h2 : ¬ totalNodes - failedOrTimedOut < quorum := fun h2 => hex ⟨h1, h2⟩
    simp [h1, h2]
  · by_cases h2 : totalNodes - failedOrTimedOut < quorum
    · simp [h1, h2]
    · simp [h1, h2]

/-- Witness for C3: the theorem at quorum 3 of 4 nodes with 1 success and 2
failures, where the result is `Unsatisfiable`. -/
theorem evaluate_trichotomy_witness :
    ((1 : Int) ≤ 3 ∧ (3 : Int) ≤ 4 ∧ (0 : Int) ≤ 1 ∧ (0 : Int) ≤ 2 ∧ (1 : Int) + 2 ≤ 4) ∧
    evaluate 3 4 1 2 = .Unsatisfiable :=
  ⟨by decide,
    ((evaluate_trichotomy 3 4 1 2 (by decide) (by decide) (by decide) (by decide)
      (by decide)).2.2.1).2 (by decide)⟩

/-! ## Theorems about the Job state machine -/

/-- An event leaves the quorum of a Job as it is. -/
theorem Job.handle_quorum (j : Job) (ev : Event) : (j.handle ev).quorum = j.quorum := by
  cases ev with
  | node name e =>
    simp only [Job.handle]
    split <;> rfl
  | cancel =>
    simp only [Job.handle]
    split <;> rfl

/-- An event is a no-op on a Job in a terminal status. -/
theorem Job.handle_of_terminal (j : Job) (ev : Event) (h : j.status.isTerminal = true) :
    j.handle ev = j := by
  cases ev <;> simp [Job.handle, h]

/-- No sequence of events changes a Job in a terminal status. -/
theorem Job.run_of_terminal (events : List Event) (j : Job)
    (h : j.status.isTerminal = true) : j.run events = j := by
  induction events with
  | nil => rfl
  | cons ev rest ih =>
    show Job.run (j.handle ev) rest = j
    rw [Job.handle_of_terminal j ev h]
    exact ih

/-- Running a concatenation of event sequences is running one after the
other. -/
theorem Job.run_append (j : Job) (es₁ es₂ : List Event) :
    j.run (es₁ ++ es₂) = (j.run es₁).run es₂ := by
  simp [Job.run, List.foldl_append]

/-- NodeRuns that are all `Invited` count no success. -/
theorem succeededCount_of_all_invited (runs : List NodeRun)
    (h : ∀ r ∈ runs, r.status = .Invited) : succeededCount runs = 0 := by
  unfold succeededCount
  rw [List.countP_eq_zero]
  intro r hr
  simp [h r hr]

/-- Cancelling NodeRuns neither adds nor removes a success. -/
theorem succeededCount_map_cancel (runs : List NodeRun) :
    succeededCount (runs.map NodeRun.cancel) = succeededCount runs := by
  unfold succeededCount
  rw [List.countP_map]
  congr 1
  funext r
  cases hs : r.status <;> simp [NodeRun.cancel, NodeRunStatus.isTerminal, hs]

/-- A re-evaluation of a non-terminal Job that does not give `Complete` has
found fewer successes than the quorum. -/
theorem Job.reevaluate_ne_complete (quorum : Nat) (status : JobStatus)
    (runs : List NodeRun) (hq : 1 ≤ quorum) (hst : status.isTerminal = false)
    (h : Job.reevaluate quorum status runs ≠ .Complete) :
    succeededCount runs < quorum := by
  by_contra hlt
  have hge : ((succeededCount runs : Nat) : Int) ≥ (quorum : Int) := by
    have : quorum ≤ succeededCount runs := Nat.le_of_not_lt hlt
    exact_mod_cast this
  have hev : evaluate quorum runs.length (succeededCount runs)
      (failedOrTimedOutCount runs) = .Satisfied := by
    simp [evaluate, hge]
  by_cases hany : runs.any (fun r => r.status ≠ .Invited) = true
  · apply h
    cases status with
    | Submitted => simp only [Job.reevaluate, hany, hev, and_self, if_true]
    | Running => simp [Job.reevaluate, hev]
    | Complete => rfl
    | Failed => simp [JobStatus.isTerminal] at hst
    | Cancelled => simp [JobStatus.isTerminal] at hst
  · have hall : ∀ r ∈ runs, r.status = .Invited := by
      intro r hr
      by_contra hne
      exact hany (List.any_eq_true.mpr ⟨r, hr, by simpa using hne⟩)
    have h0 := succeededCount_of_all_invited runs hall
    omega

/-- The invariant of the Job state machine: a Job that is not `Complete` has
fewer successes than its quorum.  Every event preserves it. -/
theorem Job.handle_invariant (j : Job) (ev : Event) (hq : 1 ≤ j.quorum)
    (hinv : j.status ≠ .Complete → succeededCount j.runs < j.quorum) :
    (j.handle ev).status ≠ .Complete →
      succeededCount (j.handle ev).runs < (j.handle ev).quorum := by
  by_cases ht : j.status.isTerminal = true
  · rw [Job.handle_of_terminal j ev ht]
    exact hinv
  · have ht' : j.status.isTerminal = false := by simpa using ht
    cases ev with
    | node name e =>
      simp only [Job.handle, ht', Bool.false_eq_true, if_false]
      exact Job.reevaluate_ne_complete j.quorum j.status _ hq ht'
    | cancel =>
      simp only [Job.handle, ht', Bool.false_eq_true, if_false]
      intro _
      rw [succeededCount_map_cancel]
      apply hinv
      intro hc
      simp [hc, JobStatus.isTerminal] at ht'

/-- The invariant holds in every state reached from a Job that has it. -/
theorem Job.run_invariant (events : List Event) (j : Job) (hq : 1 ≤ j.quorum)
    (hinv : j.status ≠ .Complete → succeededCount j.runs < j.quorum) :
    (j.run events).status ≠ .Complete →
      succeededCount (j.run events).runs < (j.run events).quorum ∧
      (j.run events).quorum = j.quorum := by
  induction events generalizing j with
  | nil => exact fun h => ⟨hinv h, rfl⟩
  | cons ev rest ih =>
    intro h
    have hq' : 1 ≤ (j.handle ev).quorum := by rw [Job.handle_quorum]; exact hq
    have := ih (j.handle ev) hq' (Job.handle_invariant j ev hq hinv) h
    exact ⟨this.1, this.2.trans (Job.handle_quorum j ev)⟩

/-- C4: for a Job submitted with `1 ≤ q ≤ n`, in any state reached by a
sequence of events in which at least `q` NodeRuns are `Succeeded` the Job is
`Complete`, and it is still `Complete` after any further events. -/
theorem job_complete_once_quorum_succeeded (nodeNames : List String) (q : Nat)
    (hq : 1 ≤ q) (hqn : q ≤ nodeNames.length) (events later : List Event)
    (hsucc : q ≤ succeededCount ((Job.create nodeNames q).run events).runs) :
    submit nodeNames q = .ok (Job.create nodeNames q) ∧
    ((Job.create nodeNames q).run events).status = .Complete ∧
    ((Job.create nodeNames q).run (events ++ later)).status = .Complete := by
  have hsub : submit nodeNames q = .ok (Job.create nodeNames q) := by
    have hne : nodeNames ≠ [] := by
      intro h
      rw [h] at hqn
      simp at hqn
      omega
    unfold submit
    rw [if_neg]
    rintro (h | h | h)
    · exact hne h
    · omega
    · omega
  have hinit : (Job.create nodeNames q).status ≠ .Complete →
      succeededCount (Job.create nodeNames q).runs < (Job.create nodeNames q).quorum := by
    intro _
    rw [succeededCount_of_all_invited]
    · exact hq
    · intro r hr
      simp only [Job.create, List.mem_map] at hr
      obtain ⟨n, _, rfl⟩ := hr
      rfl
  have hdone : ((Job.create nodeNames q).run events).status = .Complete := by
    by_contra hne
    have := Job.run_invariant events (Job.create nodeNames q) hq hinit hne
    have hqq : ((Job.create nodeNames q).run events).quorum = q := this.2
    omega
  refine ⟨hsub, hdone, ?_⟩
  rw [Job.run_append, Job.run_of_terminal later _ (by rw [hdone]; rfl)]
  exact hdone

/-- Witness for C4: four nodes, quorum 3; A, B and C ack and succeed, after
which D times out and the operator cancels. -/
theorem job_complete_once_quorum_succeeded_witness :
    3 ≤ succeededCount ((Job.create ["A", "B", "C", "D"] 3).run
      [.node "A" .ack, .node "A" (.completion 0), .node "B" .ack,
       .node "B" (.completion 0), .node "C" .ack, .node "C" (.completion 0)]).runs ∧
    ((Job.create ["A", "B", "C", "D"] 3).run
      ([.node "A" .ack, .node "A" (.completion 0), .node "B" .ack,
        .node "B" (.completion 0), .node "C" .ack, .node "C" (.completion 0)] ++
       [.node "D" .timeout, .cancel])).status = .Complete :=
  ⟨by decide,
    (job_complete_once_quorum_succeeded ["A", "B", "C", "D"] 3 (by decide) (by decide)
      [.node "A" .ack, .node "A" (.completion 0), .node "B" .ack,
       .node "B" (.completion 0), .node "C" .ack, .node "C" (.completion 0)]
      [.node "D" .timeout, .cancel] (by decide)).2.2⟩

/-! ## Theorems about the output assembler -/

/-- In a consecutive chunk list the chunk at index `i` has sequence number
`base + i`. -/
theorem ConsecutiveFrom.sequence_getElem {base : Nat} {chunks : List OutputChunk}
    (h : ConsecutiveFrom base chunks) (i : Nat) (hi : i < chunks.length) :
    chunks[i].sequence = base + i := by
  have hlen : i < (chunks.map fun c => c.sequence).length := by simpa using hi
  have h1 : (chunks.map fun c => c.sequence)[i] = chunks[i].sequence := by simp
  have hlen' : i < (List.range' base chunks.length).length := by simpa using hi
  have h' : chunks.map (fun c => c.sequence) = List.range' base chunks.length := h
  have h2 : (chunks.map fun c => c.sequence)[i] = (List.range' base chunks.length)[i] := by
    simp only [h']
  rw [← h1, h2, List.getElem_range']
  simp

/-- A chunk of a consecutive chunk list sits at the index its sequence number
gives. -/
theorem ConsecutiveFrom.eq_getElem {base : Nat} {chunks : List OutputChunk}
    (h : ConsecutiveFrom base chunks) {c : OutputChunk} (hc : c ∈ chunks) :
    ∃ hi : c.sequence - base < chunks.length,
      base ≤ c.sequence ∧ chunks[c.sequence - base] = c := by
  obtain ⟨i, hi, rfl⟩ := List.mem_iff_getElem.mp hc
  have hs := h.sequence_getElem i hi
  have hidx : chunks[i].sequence - base = i := by omega
  refine ⟨by omega, by omega, ?_⟩
  simp only [hidx]

/-- Two chunks of a consecutive chunk list with one sequence number are one
chunk. -/
theorem ConsecutiveFrom.eq_of_sequence_eq {base : Nat} {chunks : List OutputChunk}
    (h : ConsecutiveFrom base chunks) {c d : OutputChunk} (hc : c ∈ chunks)
    (hd : d ∈ chunks) (hcd : c.sequence = d.sequence) : c = d := by
  obtain ⟨_, _, h1⟩ := h.eq_getElem hc
  obtain ⟨_, _, h2⟩ := h.eq_getElem hd
  rw [← h1, ← h2]
  simp only [hcd]

/-- Appending the payload of the chunk numbered `e` to the payloads below `e`
gives the payloads below `e + 1`. -/
theorem concatPayloads_take_succ {base : Nat} {chunks : List OutputChunk}
    (h : ConsecutiveFrom base chunks) {c : OutputChunk} (hc : c ∈ chunks) :
    concatPayloads (chunks.take (c.sequence - base)) ++ c.payload =
      concatPayloads (chunks.take (c.sequence + 1 - base)) := by
  obtain ⟨hi, hb, hget⟩ := h.eq_getElem hc
  have hidx : c.sequence + 1 - base = (c.sequence - base) + 1 := by omega
  rw [hidx, List.take_succ, List.getElem?_eq_getElem hi, hget]
  simp [concatPayloads, List.flatMap_append]

/-- Every chunk that `insertChunk` leaves in the buffer is the new chunk or
was buffered before. -/
theorem mem_insertChunk {c x : OutputChunk} {buf : List OutputChunk}
    (hx : x ∈ insertChunk c buf) : x = c ∨ x ∈ buf := by
  induction buf with
  | nil => simpa [insertChunk] using hx
  | cons d ds ih =>
    simp only [insertChunk] at hx
    split at hx
    · simpa using hx
    · split at hx
      · exact Or.inr hx
      · rcases List.mem_cons.mp hx with rfl | hx
        · exact Or.inr (List.mem_cons_self _ _)
        · rcases ih hx with rfl | hmem
          · exact Or.inl rfl
          · exact Or.inr (List.mem_cons_of_mem _ hmem)

/-- A buffered chunk stays buffered when another is inserted. -/
theorem mem_insertChunk_of_mem {c x : OutputChunk} {buf : List OutputChunk}
    (hx : x ∈ buf) : x ∈ insertChunk c buf := by
  induction buf with
  | nil => cases hx
  | cons d ds ih =>
    simp only [insertChunk]
    split
    · exact List.mem_cons_of_mem _ hx
    · split
      · exact hx
      · rcases List.mem_cons.mp hx with rfl | hx
        · exact List.mem_cons_self _ _
        · exact List.mem_cons_of_mem _ (ih hx)

/-- After `insertChunk` the buffer holds a chunk with the new chunk's
sequence number. -/
theorem exists_mem_insertChunk (c : OutputChunk) (buf : List OutputChunk) :
    ∃ d ∈ insertChunk c buf, d.sequence = c.sequence := by
  induction buf with
  | nil => exact ⟨c, by simp [insertChunk], rfl⟩
  | cons d ds ih =>
    simp only [insertChunk]
    split
    · exact ⟨c, List.mem_cons_self _ _, rfl⟩
    · split
      · rename_i heq
        exact ⟨d, List.mem_cons_self _ _, heq.symm⟩
      · obtain ⟨x, hx, hxs⟩ := ih
        exact ⟨x, List.mem_cons_of_mem _ hx, hxs⟩

/-- The function `insertChunk` keeps the buffer in increasing sequence
order. -/
theorem pairwise_insertChunk (c : OutputChunk) {buf : List OutputChunk}
    (h : buf.Pairwise fun c d => c.sequence < d.sequence) :
    (insertChunk c buf).Pairwise fun c d => c.sequence < d.sequence := by
  induction buf with
  | nil => simp [insertChunk]
  | cons d ds ih =>
    have hd := List.pairwise_cons.mp h
    simp only [insertChunk]
    split
    · rename_i hlt
      refine List.pairwise_cons.mpr ⟨?_, h⟩
      intro x hx
      rcases List.mem_cons.mp hx with rfl | hx
      · exact hlt
      · exact Nat.lt_trans hlt (hd.1 x hx)
    · split
      · exact h
      · rename_i hnlt hne
        refine List.pairwise_cons.mpr ⟨?_, ih hd.2⟩
        intro x hx
        rcases mem_insertChunk hx with rfl | hx
        · omega
        · exact hd.1 x hx

/-- A buffer in increasing sequence order whose sequence numbers lie strictly
between `lo` and `hi` has fewer than `hi - lo` chunks. -/
theorem length_lt_of_pairwise (buf : List OutputChunk) (lo hi : Nat)
    (hs : buf.Pairwise fun c d => c.sequence < d.sequence)
    (hb : ∀ c ∈ buf, lo < c.sequence ∧ c.sequence < hi) (hlo : lo < hi) :
    buf.length + lo < hi := by
  induction buf generalizing lo with
  | nil => simpa using hlo
  | cons d ds ih =>
    have hd := List.pairwise_cons.mp hs
    have hdb := hb d (List.mem_cons_self _ _)
    have := ih d.sequence hd.2
      (fun x hx => ⟨hd.1 x hx, (hb x (List.mem_cons_of_mem _ hx)).2⟩) hdb.2
    simp only [List.length_cons]
    omega

/-- Draining a buffer whose chunks are at or ahead of `expected` restores
the invariant, and every chunk below `expected` or in the buffer is still
accounted for. -/
theorem OutputAssembler.drain_inv {base : Nat} {chunks : List OutputChunk}
    (hcons : ConsecutiveFrom base chunks) (buf : List OutputChunk) (a : OutputAssembler)
    (hbase : base ≤ a.expected) (hend : a.expected ≤ base + chunks.length)
    (htr : a.transcript = concatPayloads (chunks.take (a.expected - base)))
    (hs : buf.Pairwise fun c d => c.sequence < d.sequence)
    (hb : ∀ c ∈ buf, a.expected ≤ c.sequence ∧ c ∈ chunks) :
    AssemblerInv base chunks (a.drain buf) ∧
    ∀ x, (x.sequence < a.expected ∨ x ∈ buf) → (a.drain buf).Covers x := by
  induction buf generalizing a with
  | nil =>
    refine ⟨⟨hbase, hend, htr, List.Pairwise.nil, ?_⟩, ?_⟩
    · intro c hc
      cases hc
    · intro x hx
      rcases hx with hx | hx
      · exact Or.inl hx
      · cases hx
  | cons c rest ih =>
    have hc := hb c (List.mem_cons_self _ _)
    have hp := List.pairwise_cons.mp hs
    by_cases heq : c.sequence = a.expected
    · have hdrain : a.drain (c :: rest) = (a.append c).drain rest := by
        simp only [OutputAssembler.drain, heq, if_true]
      obtain ⟨hi, _, _⟩ := hcons.eq_getElem hc.2
      have hexp : (a.append c).expected = a.expected + 1 := rfl
      have htr' : (a.append c).transcript =
          concatPayloads (chunks.take ((a.append c).expected - base)) := by
        show a.transcript ++ c.payload = _
        rw [htr, hexp, ← heq]
        exact concatPayloads_take_succ hcons hc.2
      have hrest : ∀ d ∈ rest, (a.append c).expected ≤ d.sequence ∧ d ∈ chunks := by
        intro d hd
        have := hp.1 d hd
        refine ⟨?_, (hb d (List.mem_cons_of_mem _ hd)).2⟩
        rw [hexp]
        omega
      have := ih (a.append c) (by rw [hexp]; omega) (by rw [hexp]; omega) htr' hp.2 hrest
      rw [hdrain]
      refine ⟨this.1, ?_⟩
      intro x hx
      apply this.2
      rcases hx with hx | hx
      · exact Or.inl (by rw [hexp]; omega)
      · rcases List.mem_cons.mp hx with rfl | hx
        · exact Or.inl (by rw [hexp]; omega)
        · exact Or.inr hx
    · have hdrain : a.drain (c :: rest) = { a with buffer := c :: rest } := by
        simp only [OutputAssembler.drain, heq, if_false]
      rw [hdrain]
      refine ⟨⟨hbase, hend, htr, hs, ?_⟩, ?_⟩
      · intro d hd
        have hdm := hb d hd
        refine ⟨?_, hdm.2⟩
        rcases List.mem_cons.mp hd with rfl | hd'
        · exact lt_of_le_of_ne hc.1 (Ne.symm heq)
        · have := hp.1 d hd'
          show a.expected < d.sequence
          omega
      · intro x hx
        exact hx

/-- Draining sets no loss marker and discards no chunk as stale. -/
theorem OutputAssembler.drain_frame (buf : List OutputChunk) (a : OutputAssembler) :
    (a.drain buf).losses = a.losses ∧ (a.drain buf).stale = a.stale ∧
    (a.drain buf).terminal = a.terminal := by
  induction buf generalizing a with
  | nil => exact ⟨rfl, rfl, rfl⟩
  | cons c rest ih =>
    simp only [OutputAssembler.drain]
    split
    · exact ih (a.append c)
    · exact ⟨rfl, rfl, rfl⟩

/-- A flush discards no chunk as stale and leaves the NodeRun as it is. -/
theorem OutputAssembler.flush_frame (buf : List OutputChunk) (a : OutputAssembler) :
    (a.flush buf).stale = a.stale ∧ (a.flush buf).terminal = a.terminal := by
  induction buf generalizing a with
  | nil => exact ⟨rfl, rfl⟩
  | cons c rest ih =>
    simp only [OutputAssembler.flush]
    split
    · exact ih _
    · exact ih _

/-- A flush removes no loss marker: a flush that ends without one began
without one. -/
theorem OutputAssembler.flush_losses_nil (buf : List OutputChunk) (a : OutputAssembler)
    (h : (a.flush buf).losses = []) : a.losses = [] := by
  induction buf generalizing a with
  | nil => exact h
  | cons c rest ih =>
    simp only [OutputAssembler.flush] at h
    split at h
    · have := ih _ h
      simp [OutputAssembler.append] at this
    · exact ih (a.append c) h

/-- A flush of a buffer whose first chunk is ahead of `expected` sets a loss
marker. -/
theorem OutputAssembler.flush_losses_ne_nil (c : OutputChunk) (rest : List OutputChunk)
    (a : OutputAssembler) (hc : a.expected < c.sequence) :
    (a.flush (c :: rest)).losses ≠ [] := by
  intro h
  simp only [OutputAssembler.flush, hc, if_true] at h
  have := OutputAssembler.flush_losses_nil rest _ h
  simp [OutputAssembler.append] at this

/-- An arrival discards no chunk as stale and leaves the NodeRun as it is. -/
theorem OutputAssembler.arrive_frame (maxBuf : Nat) (a : OutputAssembler) (c : OutputChunk) :
    (a.arrive maxBuf c).stale = a.stale ∧ (a.arrive maxBuf c).terminal = a.terminal := by
  simp only [OutputAssembler.arrive]
  split
  · exact (OutputAssembler.drain_frame a.buffer (a.append c)).2
  · split
    · split
      · exact OutputAssembler.flush_frame _ a
      · exact ⟨rfl, rfl⟩
    · exact ⟨rfl, rfl⟩

/-- An arrival removes no loss marker. -/
theorem OutputAssembler.arrive_losses_nil (maxBuf : Nat) (a : OutputAssembler)
    (c : OutputChunk) (h : (a.arrive maxBuf c).losses = []) : a.losses = [] := by
  simp only [OutputAssembler.arrive] at h
  split at h
  · rw [(OutputAssembler.drain_frame a.buffer (a.append c)).1] at h
    exact h
  · split at h
    · split at h
      · exact OutputAssembler.flush_losses_nil _ a h
      · exact h
    · exact h

/-- No event removes a loss marker and none lowers the count of stale
chunks. -/
theorem OutputAssembler.step_monotone (maxBuf : Nat) (a : OutputAssembler)
    (e : AssemblerEvent) :
    ((a.step maxBuf e).losses = [] → a.losses = []) ∧ a.stale ≤ (a.step maxBuf e).stale := by
  cases e with
  | chunk c =>
    simp only [OutputAssembler.step]
    split
    · exact ⟨fun h => h, Nat.le_succ _⟩
    · exact ⟨OutputAssembler.arrive_losses_nil maxBuf a c,
        Nat.le_of_eq (OutputAssembler.arrive_frame maxBuf a c).1.symm⟩
  | bufferTimeExceeded =>
    simp only [OutputAssembler.step]
    split
    · exact ⟨fun h => h, Nat.le_refl _⟩
    · exact ⟨OutputAssembler.flush_losses_nil _ a,
        Nat.le_of_eq (OutputAssembler.flush_frame _ a).1.symm⟩
  | nodeRunTerminal =>
    simp only [OutputAssembler.step]
    split
    · exact ⟨fun h => h, Nat.le_refl _⟩
    · exact ⟨OutputAssembler.flush_losses_nil _ a,
        Nat.le_of_eq (OutputAssembler.flush_frame _ a).1.symm⟩

/-- No sequence of events removes a loss marker or lowers the count of stale
chunks. -/
theorem OutputAssembler.foldl_step_monotone (maxBuf : Nat) (events : List AssemblerEvent)
    (a : OutputAssembler) :
    ((events.foldl (OutputAssembler.step maxBuf) a).losses = [] → a.losses = []) ∧
    a.stale ≤ (events.foldl (OutputAssembler.step maxBuf) a).stale := by
  induction events generalizing a with
  | nil => exact ⟨fun h => h, Nat.le_refl _⟩
  | cons e rest ih =>
    have h1 := OutputAssembler.step_monotone maxBuf a e
    have h2 := ih (a.step maxBuf e)
    simp only [List.foldl_cons]
    exact ⟨fun h => h1.1 (h2.1 h), Nat.le_trans h1.2 h2.2⟩

/-- A flush of the buffer that sets no loss marker found the buffer empty,
so it changes nothing the invariant or the accounting of chunks looks at. -/
theorem OutputAssembler.flush_inv {base : Nat} {chunks : List OutputChunk}
    (a : OutputAssembler) (hinv : AssemblerInv base chunks a)
    (hclean : (a.flush a.buffer).losses = []) :
    a.buffer = [] ∧ a.flush a.buffer = a := by
  have hnil : a.buffer = [] := by
    cases hb : a.buffer with
    | nil => rfl
    | cons c rest =>
      exfalso
      rw [hb] at hclean
      exact OutputAssembler.flush_losses_ne_nil c rest a
        (hinv.ahead c (by rw [hb]; exact List.mem_cons_self _ _)).1 hclean
  refine ⟨hnil, ?_⟩
  rw [hnil]
  show { a with buffer := [] } = a
  cases a
  simp only at hnil
  simp [hnil]

/-- One arrival of a chunk of `chunks` that sets no loss marker keeps the
invariant, keeps every chunk accounted for, and accounts for the chunk that
arrived. -/
theorem OutputAssembler.arrive_inv {maxBuf base : Nat} {chunks : List OutputChunk}
    (hcons : ConsecutiveFrom base chunks)
    (a : OutputAssembler) (hinv : AssemblerInv base chunks a) (c : OutputChunk)
    (hc : c ∈ chunks) (hclean : (a.arrive maxBuf c).losses = []) :
    AssemblerInv base chunks (a.arrive maxBuf c) ∧
    (∀ x, a.Covers x → (a.arrive maxBuf c).Covers x) ∧
    (a.arrive maxBuf c).Covers c := by
  obtain ⟨hi, hcb, _⟩ := hcons.eq_getElem hc
  by_cases heq : c.sequence = a.expected
  · have harr : a.arrive maxBuf c = (a.append c).drain a.buffer := by
      simp only [OutputAssembler.arrive, heq, if_true]
    have hexp : (a.append c).expected = a.expected + 1 := rfl
    have htr' : (a.append c).transcript =
        concatPayloads (chunks.take ((a.append c).expected - base)) := by
      show a.transcript ++ c.payload = _
      rw [hinv.transcript_eq, hexp, ← heq]
      exact concatPayloads_take_succ hcons hc
    have hbuf : ∀ d ∈ a.buffer, (a.append c).expected ≤ d.sequence ∧ d ∈ chunks := by
      intro d hd
      have := hinv.ahead d hd
      exact ⟨by rw [hexp]; omega, this.2⟩
    have := OutputAssembler.drain_inv hcons a.buffer (a.append c)
      (by rw [hexp]; have := hinv.base_le; omega) (by rw [hexp]; omega) htr' hinv.sorted hbuf
    rw [harr]
    refine ⟨this.1, ?_, ?_⟩
    · intro x hx
      apply this.2
      rcases hx with hx | hx
      · exact Or.inl (by rw [hexp]; omega)
      · exact Or.inr hx
    · exact this.2 c (Or.inl (by rw [hexp]; omega))
  · by_cases hlt : a.expected < c.sequence
    · have hsorted := pairwise_insertChunk c hinv.sorted
      have hahead : ∀ d ∈ insertChunk c a.buffer, a.expected < d.sequence ∧ d ∈ chunks := by
        intro d hd
        rcases mem_insertChunk hd with rfl | hd
        · exact ⟨hlt, hc⟩
        · exact hinv.ahead d hd
      have hfit : ¬ maxBuf < (insertChunk c a.buffer).length := by
        intro hover
        have harr : a.arrive maxBuf c = a.flush (insertChunk c a.buffer) := by
          simp only [OutputAssembler.arrive, heq, hlt, hover, if_true, if_false]
        rw [harr] at hclean
        cases hb : insertChunk c a.buffer with
        | nil => rw [hb] at hover; simp at hover
        | cons d ds =>
          rw [hb] at hclean
          exact OutputAssembler.flush_losses_ne_nil d ds a
            (hahead d (by rw [hb]; exact List.mem_cons_self _ _)).1 hclean
      have harr : a.arrive maxBuf c = { a with buffer := insertChunk c a.buffer } := by
        simp only [OutputAssembler.arrive, heq, hlt, hfit, if_true, if_false]
      rw [harr]
      refine ⟨⟨hinv.base_le, hinv.le_end, hinv.transcript_eq, hsorted, hahead⟩, ?_, ?_⟩
      · intro x hx
        rcases hx with hx | hx
        · exact Or.inl hx
        · exact Or.inr (mem_insertChunk_of_mem hx)
      · obtain ⟨d, hd, hds⟩ := exists_mem_insertChunk c a.buffer
        have hdc : d = c := hcons.eq_of_sequence_eq (hahead d hd).2 hc hds
        exact Or.inr (hdc ▸ hd)
    · have harr : a.arrive maxBuf c = a := by
        simp only [OutputAssembler.arrive, heq, hlt, if_false]
      rw [harr]
      exact ⟨hinv, fun _ hx => hx, Or.inl (by omega)⟩

/-- One event that sets no loss marker and discards no chunk as stale keeps
the invariant, keeps every chunk accounted for, and accounts for the chunk
that arrived, if one did. -/
theorem OutputAssembler.step_inv {maxBuf base : Nat} {chunks : List OutputChunk}
    (hcons : ConsecutiveFrom base chunks)
    (a : OutputAssembler) (hinv : AssemblerInv base chunks a) (e : AssemblerEvent)
    (he : ∀ c, e = .chunk c → c ∈ chunks)
    (hclean : (a.step maxBuf e).losses = []) (hstale : (a.step maxBuf e).stale = a.stale) :
    AssemblerInv base chunks (a.step maxBuf e) ∧
    (∀ x, a.Covers x → (a.step maxBuf e).Covers x) ∧
    ∀ c, e = .chunk c → (a.step maxBuf e).Covers c := by
  cases e with
  | chunk c =>
    by_cases ht : a.terminal = true
    · simp only [OutputAssembler.step, ht, if_true] at hstale
      omega
    · have hstep : a.step maxBuf (.chunk c) = a.arrive maxBuf c := by
        simp only [OutputAssembler.step, ht, if_false]
        rfl
      rw [hstep] at hclean ⊢
      have := OutputAssembler.arrive_inv hcons a hinv c (he c rfl) hclean
      refine ⟨this.1, this.2.1, ?_⟩
      intro d hd
      cases hd
      exact this.2.2
  | bufferTimeExceeded =>
    by_cases ht : a.terminal = true
    · have hstep : a.step maxBuf .bufferTimeExceeded = a := by
        simp only [OutputAssembler.step, ht, if_true]
      rw [hstep]
      exact ⟨hinv, fun _ hx => hx, fun _ hd => by cases hd⟩
    · have hstep : a.step maxBuf .bufferTimeExceeded = a.flush a.buffer := by
        simp only [OutputAssembler.step, ht, if_false]
        rfl
      rw [hstep] at hclean ⊢
      rw [(OutputAssembler.flush_inv a hinv hclean).2]
      exact ⟨hinv, fun _ hx => hx, fun _ hd => by cases hd⟩
  | nodeRunTerminal =>
    by_cases ht : a.terminal = true
    · have hstep : a.step maxBuf .nodeRunTerminal = a := by
        simp only [OutputAssembler.step, ht, if_true]
      rw [hstep]
      exact ⟨hinv, fun _ hx => hx, fun _ hd => by cases hd⟩
    · have hstep : a.step maxBuf .nodeRunTerminal =
          { a.flush a.buffer with terminal := true } := by
        simp only [OutputAssembler.step, ht, if_false]
        rfl
      rw [hstep] at hclean ⊢
      have hflush : (a.flush a.buffer).losses = [] := hclean
      rw [(OutputAssembler.flush_inv a hinv hflush).2]
      exact ⟨⟨hinv.base_le, hinv.le_end, hinv.transcript_eq, hinv.sorted, hinv.ahead⟩,
        fun _ hx => hx, fun _ hd => by cases hd⟩

/-- Any sequence of events in which only chunks of `chunks` arrive, no loss
marker is set and no chunk is discarded as stale keeps the invariant and
accounts for every chunk that arrived. -/
theorem OutputAssembler.foldl_step_inv {maxBuf base : Nat} {chunks : List OutputChunk}
    (hcons : ConsecutiveFrom base chunks)
    (events : List AssemblerEvent) (a : OutputAssembler)
    (hinv : AssemblerInv base chunks a) (harr : ∀ c ∈ arrivals events, c ∈ chunks)
    (hclean : (events.foldl (OutputAssembler.step maxBuf) a).losses = [])
    (hstale : (events.foldl (OutputAssembler.step maxBuf) a).stale = a.stale) :
    AssemblerInv base chunks (events.foldl (OutputAssembler.step maxBuf) a) ∧
    (∀ x, a.Covers x → (events.foldl (OutputAssembler.step maxBuf) a).Covers x) ∧
    ∀ x ∈ arrivals events, (events.foldl (OutputAssembler.step maxBuf) a).Covers x := by
  induction events generalizing a with
  | nil => exact ⟨hinv, fun _ hx => hx, fun _ hx => by cases hx⟩
  | cons e rest ih =>
    simp only [List.foldl_cons] at hclean hstale ⊢
    have hmono := OutputAssembler.foldl_step_monotone maxBuf rest (a.step maxBuf e)
    have hmono1 := OutputAssembler.step_monotone maxBuf a e
    have hclean1 : (a.step maxBuf e).losses = [] := hmono.1 hclean
    have hstale1 : (a.step maxBuf e).stale = a.stale := by
      have := hmono.2
      have := hmono1.2
      omega
    have hhead : ∀ c, e = .chunk c → c ∈ chunks := by
      intro c hc
      subst hc
      exact harr c (by simp [arrivals])
    have htail : ∀ c ∈ arrivals rest, c ∈ chunks := by
      intro c hc
      apply harr
      cases e <;> simp [arrivals, hc]
    have hstep := OutputAssembler.step_inv hcons a hinv e hhead hclean1 hstale1
    have hrest := ih (a.step maxBuf e) hstep.1 htail hclean (by omega)
    refine ⟨hrest.1, fun x hx => hrest.2.1 x (hstep.2.1 x hx), ?_⟩
    intro x hx
    cases e with
    | chunk c =>
      simp only [arrivals, List.mem_cons] at hx
      rcases hx with rfl | hx
      · exact hrest.2.1 x (hstep.2.2 x rfl)
      · exact hrest.2.2 x hx
    | bufferTimeExceeded => exact hrest.2.2 x (by simpa [arrivals] using hx)
    | nodeRunTerminal => exact hrest.2.2 x (by simpa [arrivals] using hx)

/-- A chunk list, once every chunk of it is accounted for under the
invariant, has been applied in full: the transcript is the concatenation of
all payloads in sequence order. -/
theorem AssemblerInv.transcript_of_covers {base : Nat} {chunks : List OutputChunk}
    (hcons : ConsecutiveFrom base chunks) {a : OutputAssembler}
    (hinv : AssemblerInv base chunks a) (hcov : ∀ c ∈ chunks, a.Covers c) :
    a.transcript = concatPayloads chunks := by
  have hexp : a.expected = base + chunks.length := by
    by_contra hne
    have hb := hinv.base_le
    have he := hinv.le_end
    have hi : a.expected - base < chunks.length := by omega
    have hseq := hcons.sequence_getElem _ hi
    rcases hcov _ (List.getElem_mem hi) with h | h
    · omega
    · have := (hinv.ahead _ h).1
      omega
  rw [hinv.transcript_eq, hexp]
  simp

/-- The head of a consecutive chunk list carries the base and the tail is
consecutive from the next number. -/
theorem ConsecutiveFrom.of_cons {base : Nat} {c : OutputChunk} {rest : List OutputChunk}
    (h : ConsecutiveFrom base (c :: rest)) :
    c.sequence = base ∧ ConsecutiveFrom (base + 1) rest := by
  unfold ConsecutiveFrom at h ⊢
  simp only [List.map_cons, List.length_cons, List.range'_succ, List.cons.injEq] at h
  exact h

/-- A chunk numbered just below a consecutive buffer is inserted at its
front. -/
theorem insertChunk_front (c : OutputChunk) (buf : List OutputChunk)
    (h : ConsecutiveFrom (c.sequence + 1) buf) : insertChunk c buf = c :: buf := by
  cases buf with
  | nil => rfl
  | cons d ds =>
    have hd := h.of_cons.1
    simp only [insertChunk]
    rw [if_pos (by omega)]

/-- A flush applies every chunk of the buffer: the transcript grows by their
payloads, in buffer order. -/
theorem OutputAssembler.flush_transcript (buf : List OutputChunk) (a : OutputAssembler) :
    (a.flush buf).transcript = a.transcript ++ concatPayloads buf := by
  induction buf generalizing a with
  | nil => simp [OutputAssembler.flush, concatPayloads]
  | cons c rest ih =>
    simp only [OutputAssembler.flush]
    split
    · rw [ih]
      simp [OutputAssembler.append, concatPayloads]
    · rw [ih]
      simp [OutputAssembler.append, concatPayloads]

/-- A flush never lowers `expected`. -/
theorem OutputAssembler.flush_expected_le (buf : List OutputChunk) (a : OutputAssembler) :
    a.expected ≤ (a.flush buf).expected := by
  induction buf generalizing a with
  | nil => exact Nat.le_refl _
  | cons c rest ih =>
    simp only [OutputAssembler.flush]
    split
    · rename_i hlt
      have := ih (OutputAssembler.append
        { a with losses := a.losses ++ [a.transcript.length], expected := c.sequence } c)
      have hexp : (OutputAssembler.append
        { a with losses := a.losses ++ [a.transcript.length], expected := c.sequence }
          c).expected = c.sequence + 1 := rfl
      omega
    · have := ih (a.append c)
      have hexp : (a.append c).expected = a.expected + 1 := rfl
      omega

/-- A flush of a non-empty buffer moves `expected` past where it was. -/
theorem OutputAssembler.flush_expected_lt (c : OutputChunk) (rest : List OutputChunk)
    (a : OutputAssembler) : a.expected < (a.flush (c :: rest)).expected := by
  simp only [OutputAssembler.flush]
  split
  · rename_i hlt
    have := OutputAssembler.flush_expected_le rest (OutputAssembler.append
      { a with losses := a.losses ++ [a.transcript.length], expected := c.sequence } c)
    have hexp : (OutputAssembler.append
      { a with losses := a.losses ++ [a.transcript.length], expected := c.sequence }
        c).expected = c.sequence + 1 := rfl
    omega
  · have := OutputAssembler.flush_expected_le rest (a.append c)
    have hexp : (a.append c).expected = a.expected + 1 := rfl
    omega

/-- While the NodeRun is not terminal, a sequence of chunk events is a
sequence of arrivals. -/
theorem OutputAssembler.foldl_step_chunks (maxBuf : Nat) (arrival : List OutputChunk)
    (a : OutputAssembler) (ht : a.terminal = false) :
    (arrival.map AssemblerEvent.chunk).foldl (OutputAssembler.step maxBuf) a =
      arrival.foldl (OutputAssembler.arrive maxBuf) a := by
  induction arrival generalizing a with
  | nil => rfl
  | cons c rest ih =>
    have hstep : a.step maxBuf (.chunk c) = a.arrive maxBuf c := by
      simp [OutputAssembler.step, ht]
    simp only [List.map_cons, List.foldl_cons, hstep]
    exact ih _ (by rw [(OutputAssembler.arrive_frame maxBuf a c).2]; exact ht)

/-- Chunks ahead of the base that arrive last first, and fit the buffer, are
all buffered and nothing else changes. -/
theorem OutputAssembler.foldr_arrive_buffered (maxBuf base : Nat) (buf : List OutputChunk)
    (b : Nat) (hcons : ConsecutiveFrom b buf) (hb : base < b) (hfit : buf.length ≤ maxBuf) :
    buf.foldr (fun c a => OutputAssembler.arrive maxBuf a c) (OutputAssembler.init base) =
      { OutputAssembler.init base with buffer := buf } := by
  induction buf generalizing b with
  | nil => rfl
  | cons c rest ih =>
    have hc := hcons.of_cons
    have hlen : rest.length + 1 ≤ maxBuf := by simpa using hfit
    rw [List.foldr_cons, ih (b + 1) hc.2 (by omega) (by omega)]
    have hfront : insertChunk c rest = c :: rest :=
      insertChunk_front c rest (by rw [hc.1]; exact hc.2)
    have hne : ¬ c.sequence = base := by omega
    have hlt : base < c.sequence := by omega
    have hnover : ¬ maxBuf < rest.length + 1 := by omega
    simp [OutputAssembler.arrive, OutputAssembler.init, hne, hlt, hfront, hnover]

/-- No maximum buffer size saves C5 as stated: whatever the size `maxBuf`,
`maxBuf + 2` consecutive chunks arriving last first overflow the buffer when
the second chunk arrives; the flush-with-gap applies all chunks but the
first, which is discarded when it arrives, so the transcript lacks the first
payload. -/
theorem assemble_reverse_loses_first (maxBuf base : Nat) (first : OutputChunk)
    (rest : List OutputChunk) (hcons : ConsecutiveFrom base (first :: rest))
    (hlen : rest.length = maxBuf + 1) :
    (OutputAssembler.assemble maxBuf base (first :: rest).reverse).transcript =
        concatPayloads rest ∧
    (first.payload ≠ [] →
      (OutputAssembler.assemble maxBuf base (first :: rest).reverse).transcript ≠
        concatPayloads (first :: rest)) := by
  have hfirst := hcons.of_cons
  cases rest with
  | nil => simp at hlen
  | cons second tail =>
    have hsecond := hfirst.2.of_cons
    have htail : tail.length = maxBuf := by simpa using hlen
    have hrun : OutputAssembler.assemble maxBuf base (first :: second :: tail).reverse =
        ((OutputAssembler.flush { OutputAssembler.init base with buffer := tail }
          (second :: tail)).arrive maxBuf first) := by
      unfold OutputAssembler.assemble OutputAssembler.run
      rw [OutputAssembler.foldl_step_chunks maxBuf _ _ rfl]
      simp only [List.reverse_cons, List.foldl_append, List.foldl_cons, List.foldl_nil,
        List.foldl_reverse]
      rw [OutputAssembler.foldr_arrive_buffered maxBuf base tail (base + 1 + 1) hsecond.2
        (by omega) (by omega)]
      have hfront : insertChunk second tail = second :: tail :=
        insertChunk_front second tail (by rw [hsecond.1]; exact hsecond.2)
      have hne : ¬ second.sequence = base := by omega
      have hlt : base < second.sequence := by omega
      have hover : maxBuf < tail.length + 1 := by omega
      congr 1
      simp [OutputAssembler.arrive, OutputAssembler.init, hne, hlt, hfront, hover]
    have hexp := OutputAssembler.flush_expected_lt second tail
      { OutputAssembler.init base with buffer := tail }
    have hbase : ({ OutputAssembler.init base with buffer := tail } :
        OutputAssembler).expected = base := rfl
    have hdiscard : (OutputAssembler.flush { OutputAssembler.init base with buffer := tail }
        (second :: tail)).arrive maxBuf first =
        OutputAssembler.flush { OutputAssembler.init base with buffer := tail }
          (second :: tail) := by
      have h1 : ¬ first.sequence = (OutputAssembler.flush
          { OutputAssembler.init base with buffer := tail } (second :: tail)).expected := by
        omega
      have h2 : ¬ (OutputAssembler.flush
          { OutputAssembler.init base with buffer := tail } (second :: tail)).expected <
          first.sequence := by omega
      simp only [OutputAssembler.arrive, h1, h2, if_false]
    have htr : (OutputAssembler.assemble maxBuf base
        (first :: second :: tail).reverse).transcript = concatPayloads (second :: tail) := by
      rw [hrun, hdiscard, OutputAssembler.flush_transcript]
      simp [OutputAssembler.init]
    refine ⟨htr, ?_⟩
    intro hpay heq
    rw [htr] at heq
    have : concatPayloads (first :: second :: tail) =
        first.payload ++ concatPayloads (second :: tail) := by
      simp [concatPayloads]
    rw [this] at heq
    exact hpay (List.self_eq_append_left.mp heq)

/-- With room in the buffer for all the chunks but one, an arrival of a chunk
of `chunks` sets no loss marker. -/
theorem OutputAssembler.arrive_losses_of_room {maxBuf base : Nat}
    {chunks : List OutputChunk} (hcons : ConsecutiveFrom base chunks)
    (hroom : chunks.length ≤ maxBuf + 1) (a : OutputAssembler)
    (hinv : AssemblerInv base chunks a) (c : OutputChunk) (hc : c ∈ chunks) :
    (a.arrive maxBuf c).losses = a.losses := by
  simp only [OutputAssembler.arrive]
  split
  · exact (OutputAssembler.drain_frame a.buffer (a.append c)).1
  · split
    · rename_i hne hlt
      have hahead : ∀ d ∈ insertChunk c a.buffer,
          a.expected < d.sequence ∧ d.sequence < base + chunks.length := by
        intro d hd
        rcases mem_insertChunk hd with rfl | hd
        · obtain ⟨hdi, hdb, _⟩ := hcons.eq_getElem hc
          exact ⟨hlt, by omega⟩
        · obtain ⟨hdi, hdb, _⟩ := hcons.eq_getElem (hinv.ahead d hd).2
          exact ⟨(hinv.ahead d hd).1, by omega⟩
      obtain ⟨hci, hcb, _⟩ := hcons.eq_getElem hc
      have hlen := length_lt_of_pairwise (insertChunk c a.buffer) a.expected
        (base + chunks.length) (pairwise_insertChunk c hinv.sorted) hahead (by omega)
      have hfit : ¬ maxBuf < (insertChunk c a.buffer).length := by
        have := hinv.base_le
        omega
      rw [if_neg hfit]
    · rfl

/-- Chunks of `chunks` that arrive with nothing else happening, and with room
in the buffer for all of them but one, set no loss marker, and none is
discarded as stale. -/
theorem OutputAssembler.foldl_arrive_clean {maxBuf base : Nat} {chunks : List OutputChunk}
    (hcons : ConsecutiveFrom base chunks) (hroom : chunks.length ≤ maxBuf + 1)
    (arrival : List OutputChunk) (a : OutputAssembler)
    (hinv : AssemblerInv base chunks a) (hnil : a.losses = [])
    (harr : ∀ c ∈ arrival, c ∈ chunks) :
    (arrival.foldl (OutputAssembler.arrive maxBuf) a).losses = [] ∧
    (arrival.foldl (OutputAssembler.arrive maxBuf) a).stale = a.stale := by
  induction arrival generalizing a with
  | nil => exact ⟨hnil, rfl⟩
  | cons c rest ih =>
    have hc := harr c (List.mem_cons_self _ _)
    have hl := OutputAssembler.arrive_losses_of_room hcons hroom a hinv c hc
    have hstep := OutputAssembler.arrive_inv hcons a hinv c hc (hl.trans hnil)
    have := ih (a.arrive maxBuf c) hstep.1 (hl.trans hnil)
      (fun d hd => harr d (List.mem_cons_of_mem _ hd))
    simp only [List.foldl_cons]
    exact ⟨this.1, this.2.trans (OutputAssembler.arrive_frame maxBuf a c).1⟩

/-- The chunks that arrive in a sequence of chunk events are those chunks. -/
theorem arrivals_map_chunk (arrival : List OutputChunk) :
    arrivals (arrival.map AssemblerEvent.chunk) = arrival := by
  induction arrival with
  | nil => rfl
  | cons c rest ih => simp [arrivals, ih]

/-- A sufficient condition on the input alone for the amended C5: when the
chunks arrive with nothing else happening and the buffer has room for all of
them but one, no loss marker is set and no chunk is stale, in any arrival
order. -/
theorem assemble_clean_of_room (maxBuf base : Nat) (chunks arrival : List OutputChunk)
    (hcons : ConsecutiveFrom base chunks) (hperm : arrival.Perm chunks)
    (hroom : chunks.length ≤ maxBuf + 1) :
    (OutputAssembler.assemble maxBuf base arrival).losses = [] ∧
    (OutputAssembler.assemble maxBuf base arrival).stale = 0 := by
  have hinit : AssemblerInv base chunks (OutputAssembler.init base) :=
    ⟨Nat.le_refl _, Nat.le_add_right _ _, by simp [OutputAssembler.init, concatPayloads],
      List.Pairwise.nil, fun c hc => by cases hc⟩
  unfold OutputAssembler.assemble OutputAssembler.run
  rw [OutputAssembler.foldl_step_chunks maxBuf arrival _ rfl]
  exact OutputAssembler.foldl_arrive_clean hcons hroom arrival (OutputAssembler.init base)
    hinit rfl (fun c hc => hperm.mem_iff.mp hc)

/-- C5, as the flush-with-gap allows: for chunks of one channel whose sequence
numbers are consecutive from the expected base, listed in sequence order,
and every course of events in which they arrive, in any order and with any
expiry of the buffer's time limit or terminal transition of the NodeRun in
between, if the assembler sets no loss marker and discards no chunk as
stale, the transcript is the concatenation of the payloads in increasing
sequence order. -/
theorem run_transcript_of_no_loss (maxBuf base : Nat) (chunks : List OutputChunk)
    (events : List AssemblerEvent) (hcons : ConsecutiveFrom base chunks)
    (hperm : (arrivals events).Perm chunks)
    (hloss : (OutputAssembler.run maxBuf base events).losses = [])
    (hstale : (OutputAssembler.run maxBuf base events).stale = 0) :
    (OutputAssembler.run maxBuf base events).transcript = concatPayloads chunks := by
  have hinit : AssemblerInv base chunks (OutputAssembler.init base) :=
    ⟨Nat.le_refl _, Nat.le_add_right _ _, by simp [OutputAssembler.init, concatPayloads],
      List.Pairwise.nil, fun c hc => by cases hc⟩
  have h := OutputAssembler.foldl_step_inv hcons events (OutputAssembler.init base)
    hinit (fun c hc => hperm.mem_iff.mp hc) hloss hstale
  exact AssemblerInv.transcript_of_covers hcons h.1
    (fun c hc => h.2.2 c (hperm.mem_iff.mpr hc))

/-- Witness for the amended C5: the example of §8 with a buffer of one chunk:
arrival order 2, 1, 3 and then the NodeRun's terminal transition, with no
loss marker and no stale chunk, yields `abc`. -/
theorem run_transcript_of_no_loss_witness :
    ConsecutiveFrom 1 abcChunks ∧ (arrivals abcEvents).Perm abcChunks ∧
    (OutputAssembler.run 1 1 abcEvents).losses = [] ∧
    (OutputAssembler.run 1 1 abcEvents).stale = 0 ∧
    (OutputAssembler.run 1 1 abcEvents).transcript = ['a', 'b', 'c'] :=
  ⟨by decide, by decide, by decide, by decide,
    run_transcript_of_no_loss 1 1 abcChunks abcEvents (by decide) (by decide) (by decide)
      (by decide)⟩

/-- Counterexample to C5 as stated.  With a buffer of one chunk, the chunks 1,
2, 3 arriving in the order 3, 2, 1 and nothing else happening overflow the
buffer: the flush-with-gap applies `b` and `c` with a loss marker at offset
0, the late chunk 1 is discarded, and the transcript is `bc`, not `abc`.
With a buffer of two chunks and the arrival order 2, 1, 3, the buffer's time
limit exceeded while chunk 2 waits gives `bc` as well. -/
theorem assemble_loses_chunk :
    ConsecutiveFrom 1 abcChunks ∧ abcReversed.Perm abcChunks ∧
    (OutputAssembler.assemble 1 1 abcReversed).transcript = ['b', 'c'] ∧
    (OutputAssembler.assemble 1 1 abcReversed).losses = [0] ∧
    (OutputAssembler.assemble 1 1 abcReversed).transcript ≠ concatPayloads abcChunks ∧
    (arrivals abcEventsExpired).Perm abcChunks ∧
    (OutputAssembler.run 2 1 abcEventsExpired).transcript = ['b', 'c'] ∧
    (OutputAssembler.run 2 1 abcEventsExpired).losses = [0] := by
  decide

end Goiardi
